import Mathlib

/-!
Verification development for the GCP Bigtable chunk access layer:
the bulk write path (PutChunks), the bulk read path (GetChunks), the
table lifecycle client with its metadata cache (ListTables, CreateTable,
DeleteTable), and the fixed hex-prefix keyspace sharding scheme.

The Go source is embedded shallowly: Go maps keyed by table name are
modelled as association lists in first-insertion order (a deterministic
refinement of Go's unspecified map iteration order), the Bigtable store
is modelled as a function from table name and row key to an optional row,
and the fan-out/fan-in concurrency of GetChunks is modelled by computing
every page goroutine's sends and by an explicit event-ordered gathering
loop.  External collaborators that are not part of the provided sources
(the chunk codec, the external key derivation, the schema routing
function, the Bigtable client itself) are modelled from the spec, as
noted on each definition.
-/

namespace Cortex

/-- A Go error value; the model only needs errors to be comparable and to
carry a message. -/
structure GoError where
  msg : String
deriving DecidableEq, Repr

/-- Modelled from the spec: a metric identity (label set).  The concrete
label representation is opaque to this layer; a list of label pairs with
decidable equality suffices. -/
structure Metric where
  labels : List (String × String)
deriving DecidableEq, Repr

/-- Modelled from the spec: the serialized payload produced by the opaque
chunk codec.  The codec is an external collaborator; the spec only
requires that encoding captures the metric identity, the encoding tag and
the payload bytes, and that decoding restores them into the chunk. -/
structure EncodedChunk where
  metric : Metric
  encoding : Nat
  data : List Nat
deriving DecidableEq, Repr

/-- A chunk: tenant ID, metric fingerprint, half-open time range
[From, Through), metric identity, encoding tag and payload bytes,
mirroring the fields of the Go chunk.Chunk used by this layer. -/
structure Chunk where
  UserID : String
  Fingerprint : Nat
  From : Int
  Through : Int
  Metric : Metric
  Encoding : Nat
  Data : List Nat
deriving DecidableEq, Repr

instance : Inhabited Chunk := ⟨⟨"", 0, 0, 0, ⟨[]⟩, 0, []⟩⟩

/-- Modelled from the spec: the external key is a deterministic pure
function of tenant, fingerprint and time range (the chunk package is not
among the provided sources). -/
def Chunk.ExternalKey (c : Chunk) : String :=
  c.UserID ++ "/" ++ toString c.Fingerprint ++ ":" ++ toString c.From
    ++ ":" ++ toString c.Through

/-- Modelled from the spec: ChunkCodec.Encode, an opaque fallible
serialization.  The model codec serializes the metric, the encoding tag
and the payload bytes and never fails. -/
def Chunk.encodeChunk (c : Chunk) : EncodedChunk :=
  ⟨c.Metric, c.Encoding, c.Data⟩

/-- chunks[i].Encoded() in the source: fallible encoding of the payload. -/
def Chunk.Encoded (c : Chunk) : Except GoError EncodedChunk :=
  .ok c.encodeChunk

/-- Modelled from the spec: the per-page decode context is an allocation
helper with no observable content. -/
structure DecodeContext where
  unit : Unit
deriving DecidableEq, Repr

/-- chunk.NewDecodeContext() in the source. -/
def NewDecodeContext : DecodeContext := ⟨()⟩

/-- Modelled from the spec: ChunkCodec.Decode(decodeContext, bytes)
mutates the chunk in place, restoring the serialized fields from the
bytes; modelled as returning the updated chunk. -/
def Chunk.Decode (c : Chunk) (_ctx : DecodeContext) (b : EncodedChunk) :
    Except GoError Chunk :=
  .ok { c with Metric := b.metric, Encoding := b.encoding, Data := b.data }

/-- Modelled from the spec: the schema routing collaborator,
SchemaRouter.TableFor(timestamp), consumed as an opaque fallible function
from a chunk start time to a table name. -/
structure SchemaConfig where
  ChunkTableFor : Int → Except GoError String

/-- The fixed column family name.  Modelled from the spec: the constant
is defined elsewhere in the Go package and is not among the provided
sources; its concrete value is irrelevant to every claim. -/
def columnFamily : String := "f"

/-- The fixed column name, a package constant not among the provided
sources. -/
def column : String := "c"

/-- The fixed page size bound for fan-out reads.  The constant is defined
elsewhere in the Go package; the spec scenario (500 keys split into 5
pages) fixes it at 100. -/
def maxRowReads : Nat := 100

/-- A stored cell: the column qualifier and the value written to it. -/
structure Cell where
  col : String
  value : EncodedChunk
deriving DecidableEq, Repr

/-- A Bigtable row, as seen by the read callback: a finite map from
column family name to the list of cells of that family, newest first. -/
abbrev Row := List (String × List Cell)

/-- The Bigtable data plane: table name and row key to an optional row. -/
abbrev Store := String → String → Option Row

/-- A store holding no rows. -/
def emptyStore : Store := fun _ _ => none

/-- Go map read with a missing-key zero value: row[family] is the cell
list of the family, nil when the family is absent from the row. -/
def Row.famCells : Row → String → List Cell
  | [], _ => []
  | (f, cs) :: rest, fam => if f = fam then cs else Row.famCells rest fam

/-- Writing a cell into a row: prepend the new cell to the family's cell
list (Bigtable returns cells newest first), creating the family if absent. -/
def Row.setCell : Row → String → String → EncodedChunk → Row
  | [], fam, col, v => [(fam, [⟨col, v⟩])]
  | (f, cs) :: rest, fam, col, v =>
      if f = fam then (f, ⟨col, v⟩ :: cs) :: rest
      else (f, cs) :: Row.setCell rest fam col v

/-- A Bigtable mutation as built by PutChunks:
mut.Set(family, column, ts, value). -/
structure Mutation where
  family : String
  col : String
  ts : Int
  value : EncodedChunk
deriving DecidableEq, Repr

/-- Applying one mutation to the store at (table, key): set the cell in
the addressed row, creating the row if absent. -/
def applyMutation (s : Store) (table key : String) (m : Mutation) : Store :=
  fun t k =>
    if t = table ∧ k = key then
      some (Row.setCell ((s t k).getD []) m.family m.col m.value)
    else s t k

/-- table.ApplyBulk(ctx, keys, muts) for one table, modelled as the
infallible application of each (key, mutation) pair in order; the model
backing store reports no per-row errors. -/
def applyBulk (s : Store) (table : String) : List (String × Mutation) → Store
  | [] => s
  | (k, m) :: rest => applyBulk (applyMutation s table k m) table rest

/-- The accumulation loop of PutChunks (source lines 63-78): for each
chunk in order, encode the payload, compute the external key, resolve the
destination table, and record (table, key, mutation) where the mutation
sets the fixed column family and column to the encoded bytes with
timestamp 0.  The first encode or routing error aborts the batch. -/
def putChunksAccum (sc : SchemaConfig) :
    List Chunk → Except GoError (List (String × String × Mutation))
  | [] => .ok []
  | c :: cs =>
    match c.Encoded with
    | .error e => .error e
    | .ok buf =>
      match sc.ChunkTableFor c.From with
      | .error e => .error e
      | .ok tableName =>
        match putChunksAccum sc cs with
        | .error e => .error e
        | .ok rest =>
            .ok ((tableName, c.ExternalKey,
                  ⟨columnFamily, column, 0, buf⟩) :: rest)

/-- The distinct destination tables of the accumulated triples, in first
appearance order: the key set of the Go maps keys/muts, iterated in a
deterministic order. -/
def tablesIn (l : List (String × String × Mutation)) : List String :=
  (l.map (·.1)).dedup

/-- keys[tableName] zipped with muts[tableName]: the (key, mutation)
pairs accumulated for one table, in input order. -/
def perTable (l : List (String × String × Mutation)) (t : String) :
    List (String × Mutation) :=
  (l.filter (fun x => x.1 = t)).map (fun x => (x.2.1, x.2.2))

/-- The apply loop of PutChunks (source lines 80-91): one ApplyBulk per
distinct destination table. -/
def putApply (s : Store) (l : List (String × String × Mutation)) : Store :=
  (tablesIn l).foldl (fun s t => applyBulk s t (perTable l t)) s

/-- PutChunks (source lines 59-93): group the batch into per-table
(key, mutation) lists, then bulk-apply per table; any encode or routing
error aborts the whole batch. -/
def PutChunks (sc : SchemaConfig) (s : Store) (chunks : List Chunk) :
    Except GoError Store :=
  match putChunksAccum sc chunks with
  | .error e => .error e
  | .ok triples => .ok (putApply s triples)

/-- Go map assignment m[k] = v on a string-keyed map, modelled on an
association list: overwrite the existing binding or append a new one. -/
def mapSet {α : Type} : List (String × α) → String → α → List (String × α)
  | [], k, v => [(k, v)]
  | (k', v') :: rest, k, v =>
      if k' = k then (k', v) :: rest else (k', v') :: mapSet rest k v

/-- Go map read m[k] with comma-ok, modelled on an association list. -/
def mapGet {α : Type} : List (String × α) → String → Option α
  | [], _ => none
  | (k', v') :: rest, k => if k' = k then some v' else mapGet rest k

/-- Appending an element to one bucket of a table-keyed map of lists:
keys[tableName] = append(keys[tableName], x) on a map whose missing
buckets start empty. -/
def assocAppend {α : Type} :
    List (String × List α) → String → α → List (String × List α)
  | [], t, x => [(t, [x])]
  | (t', xs) :: rest, t, x =>
      if t' = t then (t', xs ++ [x]) :: rest
      else (t', xs) :: assocAppend rest t x

/-- The grouping loop of GetChunks (source lines 100-113): resolve each
requested chunk's destination table in input order, aborting on the
first routing error, and bucket the chunks per table in first appearance
order.  The per-table ordered key list and key-to-chunk map of the
source are both derived from these buckets. -/
def getGroupGo (sc : SchemaConfig) (acc : List (String × List Chunk)) :
    List Chunk → Except GoError (List (String × List Chunk))
  | [] => .ok acc
  | c :: cs =>
    match sc.ChunkTableFor c.From with
    | .error e => .error e
    | .ok t => getGroupGo sc (assocAppend acc t c) cs

/-- Per-table grouping of a GetChunks request batch. -/
def getGroup (sc : SchemaConfig) (input : List Chunk) :
    Except GoError (List (String × List Chunk)) :=
  getGroupGo sc [] input

/-- chunks[tableName], the key-to-chunk map of one table, built by Go map
assignment in input order. -/
def chunksMap (chs : List Chunk) : List (String × Chunk) :=
  chs.foldl (fun m c => mapSet m c.ExternalKey c) []

/-- The paging loop (source lines 125-126): consecutive slices
keys[i : min(i+maxRowReads, len(keys))].  Structural recursion on a fuel
bounded by the list length so that the definition evaluates by kernel
reduction. -/
def paginateGo {α : Type} : Nat → List α → List (List α)
  | _, [] => []
  | 0, _ :: _ => []
  | fuel + 1, l@(_ :: _) =>
      l.take maxRowReads :: paginateGo fuel (l.drop maxRowReads)

/-- Split a key list into pages of at most maxRowReads keys. -/
def paginate {α : Type} (l : List α) : List (List α) :=
  paginateGo l.length l

/-- Byte-order comparison of row keys as character lists; a computable
total order that the kernel can evaluate (the library order on String
does not reduce), used only to model that rows come back sorted by key. -/
def charListLe : List Char → List Char → Bool
  | [], _ => true
  | _ :: _, [] => false
  | a :: as, b :: bs =>
      if a.toNat < b.toNat then true
      else if b.toNat < a.toNat then false
      else charListLe as bs

/-- Key order on row keys: the backing store returns the matched rows of
a page sorted by key, not in request order. -/
def sortKeys (ks : List String) : List String :=
  List.insertionSort (fun a b => charListLe a.data b.data = true) ks.dedup

/-- table.ReadRows over one page of keys: the store yields each matched
row exactly once, in key order; absent keys yield nothing. -/
def readRows (store : Store) (table : String) (page : List String) :
    List (String × Row) :=
  (sortKeys page).filterMap (fun k => (store table k).map (fun r => (k, r)))

/-- The outcome of the row callback (source lines 134-150) on one row. -/
inductive RowStep
  | ok (c : Chunk)
  | stopUnknown (key : String)
  | stopPanic
  | stopDecode (e : GoError)
deriving DecidableEq, Repr

/-- One execution of the ReadRows callback: look the row up by key in the
table's chunk map (unknown keys are a fatal processing error), read the
first cell of the fixed column family (an unguarded index: a matched row
with no cell in that family is a runtime panic, not an error), and decode
the cell value into the requested chunk. -/
def rowStep (cm : List (String × Chunk)) (kr : String × Row) : RowStep :=
  match mapGet cm kr.1 with
  | none => .stopUnknown kr.1
  | some c =>
    match (Row.famCells kr.2 columnFamily).head? with
    | none => .stopPanic
    | some cell =>
      match c.Decode NewDecodeContext cell.value with
      | .error e => .stopDecode e
      | .ok c' => .ok c'

/-- How a page goroutine's row loop ended. -/
inductive PageEnd
  | done
  | panicked
  | unknown (key : String)
  | decodeFail (e : GoError)
deriving DecidableEq, Repr

/-- The callback loop of one page goroutine: successfully decoded chunks
are sent to the completion channel in row order; the first unknown key or
decode failure stops the iteration (the callback returns false), and an
unguarded empty cell list panics the goroutine. -/
def runRows (cm : List (String × Chunk)) :
    List (String × Row) → List Chunk × PageEnd
  | [] => ([], .done)
  | kr :: rest =>
    match rowStep cm kr with
    | .ok c =>
        let r := runRows cm rest
        (c :: r.1, r.2)
    | .stopUnknown k => ([], .unknown k)
    | .stopPanic => ([], .panicked)
    | .stopDecode e => ([], .decodeFail e)

/-- The data-integrity errors a page goroutine can send on the error
channel (source lines 152-158); transport errors from ReadRows itself do
not arise in the model backing store. -/
inductive ReadErr
  | unknownChunk (key : String)
  | decodeErr (e : GoError)
  | countMismatch (asked received : Nat)
deriving DecidableEq, Repr

/-- What one page goroutine does after its row loop (source lines
152-158): report the processing error if any, else report a count
mismatch when fewer rows arrived than keys were asked, else finish
cleanly.  A panicked goroutine sends nothing. -/
inductive PageOutcome
  | panicked
  | errSend (e : ReadErr)
  | clean
deriving DecidableEq, Repr

/-- The record of one page goroutine: the page length (number of keys
asked) and its run (chunks sent to the completion channel, and how the
row loop ended). -/
abbrev PageRun := Nat × (List Chunk × PageEnd)

/-- The error-channel behaviour of one page goroutine. -/
def pageOutcome (r : PageRun) : PageOutcome :=
  match r.2.2 with
  | .panicked => .panicked
  | .unknown k => .errSend (.unknownChunk k)
  | .decodeFail e => .errSend (.decodeErr e)
  | .done =>
      if r.2.1.length < r.1 then .errSend (.countMismatch r.1 r.2.1.length)
      else .clean

/-- All page goroutines of one table (source lines 118-160): page the
table's ordered key list and run each page against the table-wide
key-to-chunk map. -/
def tableRuns (store : Store) (t : String) (chs : List Chunk) :
    List PageRun :=
  (paginate (chs.map Chunk.ExternalKey)).map
    (fun p => (p.length, runRows (chunksMap chs) (readRows store t p)))

/-- The error returned by a GetChunks call. -/
inductive CallError
  | goErr (e : GoError)
  | readErr (e : ReadErr)
  | ctxErr (e : GoError)
deriving DecidableEq, Repr

/-- The observable result of a GetChunks call: a runtime panic in some
page goroutine, a (nil, error) return, or a (chunks, nil) return. -/
inductive GetOutcome
  | panicked
  | failure (e : CallError)
  | success (out : List Chunk)
deriving DecidableEq, Repr

/-- The first error sent on the error channel, in page launch order: a
deterministic refinement of the nondeterministic first-error-wins select
of the gathering loop (which error wins never matters to the claims,
since an error return discards the slice entirely). -/
def firstErrSend : List PageOutcome → Option ReadErr
  | [] => none
  | .errSend e :: _ => some e
  | .panicked :: rest => firstErrSend rest
  | .clean :: rest => firstErrSend rest

/-- The denotation of the gathering loop (source lines 163-175) over the
completed page runs: a panic anywhere crashes the call; otherwise the
first error sent wins and the slice is discarded; otherwise every page
completed cleanly and the loop collects exactly the chunks sent. -/
def combineRuns (runs : List PageRun) : GetOutcome :=
  let outs := runs.map pageOutcome
  if outs.any (fun o => o = PageOutcome.panicked) then .panicked
  else
    match firstErrSend outs with
    | some e => .failure (.readErr e)
    | none => .success ((runs.map (fun r => r.2.1)).flatten)

/-- GetChunks (source lines 95-176): group the requested chunk
identities per destination table, fan out one page run per maxRowReads
keys, and gather either every requested chunk or the first error. -/
def GetChunks (sc : SchemaConfig) (store : Store) (input : List Chunk) :
    GetOutcome :=
  match getGroup sc input with
  | .error e => .failure (.goErr e)
  | .ok groups =>
      combineRuns ((groups.map (fun g => tableRuns store g.1 g.2)).flatten)

/-- One delivery to the gathering loop's select (source lines 164-172):
a chunk from the completion channel, an error from the error channel, or
the context's cancellation. -/
inductive GEvent
  | chunk (c : Chunk)
  | errE (e : ReadErr)
  | ctxDone (e : GoError)
deriving DecidableEq, Repr

/-- The gathering loop itself (source lines 163-175), parametrised by the
order in which the select statement delivers results: it pulls exactly n
results; a chunk is appended to the output, an error or the context's
error returns immediately with a nil slice.  none models a loop blocked
on an empty select (never reached from the fan-out, which always
delivers enough events). -/
def gather (n : Nat) (acc : List Chunk) (evs : List GEvent) :
    Option (Except CallError (List Chunk)) :=
  match n with
  | 0 => some (.ok acc)
  | n + 1 =>
    match evs with
    | [] => none
    | .chunk c :: rest => gather n (acc ++ [c]) rest
    | .errE e :: _ => some (.error (.readErr e))
    | .ctxDone e :: _ => some (.error (.ctxErr e))

/-- The completion channel's buffer capacity (source line 115):
make(chan chunk.Chunk, len(input)). -/
def outsCapacity (input : List Chunk) : Nat := input.length

/-- The error channel's buffer capacity (source line 116):
make(chan error, len(input)). -/
def errsCapacity (input : List Chunk) : Nat := input.length

/-- How many sends a page goroutine performs on the completion channel:
one per successfully decoded row. -/
def chunkSendCount (r : PageRun) : Nat := r.2.1.length

/-- How many sends a page goroutine performs on the error channel: one
when its outcome is an error send, none otherwise. -/
def errSendCount (r : PageRun) : Nat :=
  match pageOutcome r with
  | .errSend _ => 1
  | _ => 0

/-- The row PutChunks leaves at a chunk's key in an empty store: one
cell in the fixed column family and column holding the encoded bytes. -/
def singleRow (c : Chunk) : Row :=
  [(columnFamily, [⟨column, c.encodeChunk⟩])]

/-- The mutation PutChunks accumulates for a chunk. -/
def mkMut (c : Chunk) : Mutation :=
  ⟨columnFamily, column, 0, c.encodeChunk⟩

/-- Folding a list of mutations into one optional row, the per-key
residue of bulk application. -/
def applyMuts (r : Option Row) : List Mutation → Option Row
  | [] => r
  | m :: rest =>
      applyMuts (some (Row.setCell (r.getD []) m.family m.col m.value)) rest

/-- The mutations an accumulated triple list directs at one
(table, key) cell, in order. -/
def mutsAt (l : List (String × String × Mutation)) (t k : String) :
    List Mutation :=
  (l.filter (fun x => x.1 = t ∧ x.2.1 = k)).map (fun x => x.2.2)

/-! ## Table lifecycle client (pkg/chunk/gcp/table_client.go) -/

/-- A gRPC status code, as inspected by alreadyExistsError. -/
inductive StatusCode
  | OK
  | AlreadyExists
  | NotFound
  | other (n : Nat)
deriving DecidableEq, Repr

/-- A backing-store admin error.  Modelled from the spec: every error the
Bigtable admin client returns carries a gRPC status (status.FromError
succeeds on them). -/
structure GrpcError where
  code : StatusCode
  msg : String
deriving DecidableEq, Repr

/-- errors.Wrap(err, op): an error annotated with the failing
operation's name, preserving the cause. -/
structure WrappedError where
  op : String
  cause : GrpcError
deriving DecidableEq, Repr

/-- alreadyExistsError (source lines 96-99): the error carries gRPC
status AlreadyExists. -/
def alreadyExistsError (e : GrpcError) : Bool :=
  e.code = StatusCode.AlreadyExists

/-- bigtable.FamilyInfo: the model only needs the family name. -/
structure FamilyInfo where
  Name : String
deriving DecidableEq, Repr

/-- bigtable.TableInfo: the column families of a table. -/
structure TableInfo where
  FamilyInfos : List FamilyInfo
deriving DecidableEq, Repr

/-- hasColumnFamily (source lines 71-78): whether the listed families
contain the fixed column family. -/
def hasColumnFamily (infos : List FamilyInfo) : Bool :=
  infos.any (fun f => f.Name = columnFamily)

/-- The admin side of the backing store as consulted by ListTables:
the table listing and the per-table metadata fetch, each fallible.
Modelled from the spec: the Bigtable admin client is an external
collaborator. -/
structure AdminBackend where
  tablesResult : Except GrpcError (List String)
  tableInfoResult : String → Except GrpcError TableInfo
  deleteResult : String → Except GrpcError Unit

/-- The mutable state of the tableClient receiver: the metadata cache and
the shared cache expiration instant.  Wall-clock instants are modelled as
integers. -/
structure TableClientState where
  tableInfo : List (String × TableInfo)
  tableExpiration : Int
deriving DecidableEq, Repr

/-- The configuration fields consumed by the table client. -/
structure Config where
  TableCacheEnabled : Bool
  TableCacheExpiration : Int
deriving DecidableEq, Repr

/-- The state NewTableClient starts from: an empty cache and the zero
time (which precedes any positive wall-clock instant). -/
def newTableClientState : TableClientState := ⟨[], 0⟩

/-- The expiration check of ListTables (source lines 45-48): when the
shared expiration instant lies strictly before now, clear the whole
cache and open a new expiration window.  The two time.Now() calls of the
source are modelled as the same instant. -/
def refreshCache (cfg : Config) (now : Int) (st : TableClientState) :
    TableClientState :=
  if st.tableExpiration < now then ⟨[], now + cfg.TableCacheExpiration⟩
  else st

/-- The metadata ListTables consults for one table (source lines 53-59):
the cached entry when present and caching is enabled, else a fresh
fetch from the backing store. -/
def usedInfo (cfg : Config) (backend : AdminBackend)
    (st : TableClientState) (table : String) : Except GrpcError TableInfo :=
  match mapGet st.tableInfo table with
  | some info =>
      if cfg.TableCacheEnabled then .ok info
      else backend.tableInfoResult table
  | none => backend.tableInfoResult table

/-- The per-table loop of ListTables (source lines 51-66): use the
cached metadata when present and caching is enabled, else fetch fresh
metadata (propagating fetch errors wrapped, with the state mutated so
far); append tables having the fixed column family to the output and
skip the cache write for them; cache the metadata of tables lacking the
family. -/
def listLoop (cfg : Config) (backend : AdminBackend) :
    List String → List String → TableClientState →
    Except WrappedError (List String) × TableClientState
  | [], out, st => (.ok out, st)
  | table :: rest, out, st =>
    match usedInfo cfg backend st table with
    | .error e => (.error ⟨"client.TableInfo", e⟩, st)
    | .ok info =>
      if hasColumnFamily info.FamilyInfos then
        listLoop cfg backend rest (out ++ [table]) st
      else
        listLoop cfg backend rest out
          { st with tableInfo := mapSet st.tableInfo table info }

/-- ListTables (source lines 39-69): list the tables, lazily refresh the
cache window, and filter to the tables carrying the fixed column family. -/
def ListTables (cfg : Config) (backend : AdminBackend) (now : Int)
    (st : TableClientState) :
    Except WrappedError (List String) × TableClientState :=
  match backend.tablesResult with
  | .error e => (.error ⟨"client.Tables", e⟩, st)
  | .ok tables => listLoop cfg backend tables [] (refreshCache cfg now st)

/-- Go delete(map, key) on an association map. -/
def mapDrop {α : Type} : List (String × α) → String → List (String × α)
  | [], _ => []
  | (k, v) :: rest, name =>
      if k = name then mapDrop rest name else (k, v) :: mapDrop rest name

/-- DeleteTable (source lines 101-108): delete the table in the backing
store, evicting the cache entry only on success. -/
def DeleteTable (backend : AdminBackend) (name : String)
    (st : TableClientState) :
    Except WrappedError Unit × TableClientState :=
  match backend.deleteResult name with
  | .error e => (.error ⟨"client.DeleteTable", e⟩, st)
  | .ok _ =>
      (.ok (), { st with tableInfo := mapDrop st.tableInfo name })

/-- chunk.TableDesc: the table client only consumes the name. -/
structure TableDesc where
  Name : String
deriving DecidableEq, Repr

/-- The admin data the create path acts on: the set of tables and each
table's column families.  Modelled from the spec: the Bigtable admin
service is an external collaborator; creating an existing table or an
existing family answers a gRPC AlreadyExists status. -/
structure AdminState where
  tables : List String
  families : List (String × List String)
deriving DecidableEq, Repr

/-- The admin service's CreateTable call: AlreadyExists when the table is
present, else create it with no families. -/
def adminCreateTable (s : AdminState) (name : String) :
    Option GrpcError × AdminState :=
  if name ∈ s.tables then (some ⟨.AlreadyExists, "table already exists"⟩, s)
  else (none, ⟨name :: s.tables, mapSet s.families name []⟩)

/-- The admin service's CreateColumnFamily call: NotFound when the table
is absent, AlreadyExists when the family is present, else add it. -/
def adminCreateColumnFamily (s : AdminState) (table fam : String) :
    Option GrpcError × AdminState :=
  if table ∉ s.tables then (some ⟨.NotFound, "table not found"⟩, s)
  else
    let fams := (mapGet s.families table).getD []
    if fam ∈ fams then (some ⟨.AlreadyExists, "family already exists"⟩, s)
    else (none, { s with families := mapSet s.families table (fam :: fams) })

/-- The pure error-handling logic of CreateTable (source lines 80-94)
over the two backend answers: a non-AlreadyExists answer from the
create-table step returns it wrapped without reaching the second step;
an AlreadyExists answer from either step is treated as success; a
non-AlreadyExists answer from the create-family step returns it
wrapped. -/
def createTableLogic (r1 : Option GrpcError) (r2 : Option GrpcError) :
    Except WrappedError Unit :=
  match r1 with
  | some e =>
    if alreadyExistsError e then
      match r2 with
      | some e2 =>
        if alreadyExistsError e2 then .ok ()
        else .error ⟨"client.CreateColumnFamily", e2⟩
      | none => .ok ()
    else .error ⟨"client.CreateTable", e⟩
  | none =>
    match r2 with
    | some e2 =>
      if alreadyExistsError e2 then .ok ()
      else .error ⟨"client.CreateColumnFamily", e2⟩
    | none => .ok ()

/-- The create-column-family step of CreateTable (source lines 87-91). -/
def createFamilyStep (s1 : AdminState) (desc : TableDesc) :
    Except WrappedError Unit × AdminState :=
  match adminCreateColumnFamily s1 desc.Name columnFamily with
  | (some e, s2) =>
    if alreadyExistsError e then (.ok (), s2)
    else (.error ⟨"client.CreateColumnFamily", e⟩, s2)
  | (none, s2) => (.ok (), s2)

/-- CreateTable (source lines 80-94): create the table if absent, then
ensure the fixed column family exists; AlreadyExists answers from either
step are treated as success. -/
def CreateTable (s0 : AdminState) (desc : TableDesc) :
    Except WrappedError Unit × AdminState :=
  match adminCreateTable s0 desc.Name with
  | (some e, s1) =>
    if alreadyExistsError e then createFamilyStep s1 desc
    else (.error ⟨"client.CreateTable", e⟩, s1)
  | (none, s1) => createFamilyStep s1 desc

/-! ## Keyspace shard scanner

Modelled from the spec: the scanner implementation is not among the
provided sources; only the NewScanner documentation (source lines
183-202) and the spec describe the shard-to-prefix mapping.  Shard
indices 0..239 map onto the two-hex-character prefixes 10..ff, and a
shard's row-key range is [prefix, lexicographic successor of prefix). -/

/-- The hex digit character for a value below 16 (and the successor
character of f for the value 16, which only arises in the upper bound of
the last shard's range). -/
def hexChar (n : Nat) : Char :=
  if n < 10 then Char.ofNat (48 + n) else Char.ofNat (87 + n)

/-- The two-hex-character prefix of a shard index: shard i maps to the
hex rendering of i + 16, so shard 0 is 10 and shard 239 is ff. -/
def shardHex (i : Nat) : String :=
  String.mk [hexChar ((i + 16) / 16), hexChar ((i + 16) % 16)]

/-- The exclusive upper bound of a shard's row-key range: the
lexicographic successor prefix, i.e. the rendering of i + 17 (for shard
239 this is the string g0, which lexicographically bounds every key
beginning with ff). -/
def nextShardHex (i : Nat) : String :=
  String.mk [hexChar ((i + 17) / 16), hexChar ((i + 17) % 16)]

/-- Whether a two-character fingerprint prefix falls inside shard i's
row-key range [shardHex i, nextShardHex i), in byte order. -/
def inShardRange (i : Nat) (p : String) : Bool :=
  charListLe (shardHex i).data p.data
    && !charListLe (nextShardHex i).data p.data

/-- Whether a character is a lowercase hex digit. -/
def isHexDigit (c : Char) : Bool :=
  (48 ≤ c.toNat && c.toNat ≤ 57) || (97 ≤ c.toNat && c.toNat ≤ 102)

/-- A valid textual fingerprint prefix: two hex digits, the first not 0
(hashed fingerprints never begin with a zero nibble in their textual key
encoding). -/
def isValidHexPair (s : String) : Bool :=
  match s.data with
  | [c1, c2] => isHexDigit c1 && isHexDigit c2 && c1 ≠ '0'
  | _ => false

/-- Whether the metadata decision for a table carries the fixed column
family (the filter the ListTables output applies). -/
def tableHasFamilyD (D : String → Except GrpcError TableInfo)
    (t : String) : Bool :=
  match D t with
  | .ok info => hasColumnFamily info.FamilyInfos
  | .error _ => false

/-- The reachable-cache invariant of the table client: because ListTables
only writes cache entries for tables found to lack the fixed column
family, every cached entry lacks the family.  It holds in the initial
state and is preserved by every table-client operation that touches the
cache. -/
def CacheInv (st : TableClientState) : Prop :=
  ∀ t info, mapGet st.tableInfo t = some info →
    hasColumnFamily info.FamilyInfos = false

/-! ## Concrete instances used by witnesses and counterexamples -/

/-- A table-client configuration with caching enabled and a ten-tick
expiration window. -/
def cfgDemo : Config := ⟨true, 10⟩

/-- An admin backend with a single table t whose metadata carries the
fixed column family. -/
def backendDemo : AdminBackend :=
  ⟨.ok ["t"], fun _ => .ok ⟨[⟨columnFamily⟩]⟩, fun _ => .ok ()⟩

/-- An admin backend with one table lacking the family and one having
it. -/
def backendDemo2 : AdminBackend :=
  ⟨.ok ["bare", "good"],
    fun t => if t = "good" then .ok ⟨[⟨columnFamily⟩]⟩ else .ok ⟨[⟨"o"⟩]⟩,
    fun _ => .ok ()⟩

/-- A schema routing every chunk to one table. -/
def demoSchema : SchemaConfig := ⟨fun _ => .ok "table1"⟩

/-- The spec scenario chunk: tenant 1, fingerprint 0xABCD, range
[0, 3600). -/
def c1demo : Chunk := ⟨"1", 0xABCD, 0, 3600, ⟨[("name", "cpu")]⟩, 1, [1, 2, 3]⟩

/-- A second chunk with a distinct fingerprint. -/
def c2demo : Chunk := ⟨"1", 0xBEEF, 0, 3600, ⟨[("name", "mem")]⟩, 1, [4, 5]⟩

/-- The store produced by writing both demo chunks. -/
def demoStore : Store :=
  match PutChunks demoSchema emptyStore [c1demo, c2demo] with
  | .ok s => s
  | .error _ => emptyStore

/-- The store produced by writing only the first demo chunk, so that the
second demo chunk's key is absent. -/
def demoStore1 : Store :=
  match PutChunks demoSchema emptyStore [c1demo] with
  | .ok s => s
  | .error _ => emptyStore

/-- The store produced by writing a batch that repeats the first demo
chunk: both mutations land on the same row key. -/
def dupStore : Store :=
  match PutChunks demoSchema emptyStore [c1demo, c1demo] with
  | .ok s => s
  | .error _ => emptyStore

/-- A store holding, at the first demo chunk's key, a row whose cells
all live in a different column family: the row matches the request but
carries no cell in the fixed family. -/
def badRowStore : Store := fun t k =>
  if t = "table1" ∧ k = c1demo.ExternalKey then
    some [("other", [⟨column, c2demo.encodeChunk⟩])]
  else none

/-- The chunk slice of the successful demo round trip. -/
def demoOut : List Chunk :=
  match GetChunks demoSchema demoStore [c1demo, c2demo] with
  | .success o => o
  | _ => []

/-! ## C5: idempotent CreateTable -/

/-- Claim C5: CreateTable is idempotent.  An AlreadyExists answer from
the create-table step or the create-column-family step is treated as
success and nil is returned; against the admin-state model, calling
CreateTable twice with the same description succeeds both times; and an
error whose gRPC status is AlreadyExists is never surfaced to the
caller. -/
theorem createTable_idempotent :
    (∀ r1 r2 : Option GrpcError,
        (∀ e, r1 = some e → alreadyExistsError e = true) →
        (∀ e, r2 = some e → alreadyExistsError e = true) →
        createTableLogic r1 r2 = .ok ())
    ∧ (∀ s0 : AdminState, ∀ desc : TableDesc,
        (CreateTable s0 desc).1 = .ok ()
        ∧ (CreateTable (CreateTable s0 desc).2 desc).1 = .ok ())
    ∧ (∀ r1 r2 w, createTableLogic r1 r2 = .error w →
        alreadyExistsError w.cause = false) := by
  refine ⟨?_, ?_, ?_⟩
  · intro r1 r2 h1 h2
    cases r1 with
    | none =>
      cases r2 with
      | none => rfl
      | some e2 =>
        dsimp only [createTableLogic]
        rw [if_pos (h2 e2 rfl)]
    | some e =>
      cases r2 with
      | none =>
        dsimp only [createTableLogic]
        rw [if_pos (h1 e rfl)]
      | some e2 =>
        dsimp only [createTableLogic]
        rw [if_pos (h1 e rfl), if_pos (h2 e2 rfl)]
  · intro s0 desc
    have step : ∀ s1 : AdminState, desc.Name ∈ s1.tables →
        (createFamilyStep s1 desc).1 = .ok ()
        ∧ desc.Name ∈ (createFamilyStep s1 desc).2.tables := by
      intro s1 hmem
      unfold createFamilyStep adminCreateColumnFamily
      simp only [hmem, not_true_eq_false, if_false]
      by_cases hf : columnFamily ∈ (mapGet s1.families desc.Name).getD []
      · simp [hf, alreadyExistsError, hmem]
      · simp [hf, hmem]
    have first : (CreateTable s0 desc).1 = .ok ()
        ∧ desc.Name ∈ (CreateTable s0 desc).2.tables := by
      unfold CreateTable adminCreateTable
      by_cases hmem : desc.Name ∈ s0.tables
      · simp only [hmem, if_true]
        simpa [alreadyExistsError] using step s0 hmem
      · simp only [hmem, if_false]
        exact step ⟨desc.Name :: s0.tables, mapSet s0.families desc.Name []⟩
          (List.mem_cons_self _ _)
    refine ⟨first.1, ?_⟩
    have second : ∀ s1 : AdminState, desc.Name ∈ s1.tables →
        (CreateTable s1 desc).1 = .ok () := by
      intro s1 hmem
      unfold CreateTable adminCreateTable
      simp only [hmem, if_true]
      simpa [alreadyExistsError] using (step s1 hmem).1
    exact second _ first.2
  · intro r1 r2 w h
    cases r1 with
    | none =>
      cases r2 with
      | none => cases h
      | some e2 =>
        dsimp only [createTableLogic] at h
        by_cases hae : alreadyExistsError e2 = true
        · rw [if_pos hae] at h; cases h
        · rw [if_neg hae] at h
          cases h
          simpa using hae
    | some e =>
      dsimp only [createTableLogic] at h
      by_cases hae1 : alreadyExistsError e = true
      · rw [if_pos hae1] at h
        cases r2 with
        | none => cases h
        | some e2 =>
          dsimp only at h
          by_cases hae : alreadyExistsError e2 = true
          · rw [if_pos hae] at h; cases h
          · rw [if_neg hae] at h
            cases h
            simpa using hae
      · rw [if_neg hae1] at h
        cases h
        simpa using hae1

/-- Witness for C5 at a concrete input: both steps answering
AlreadyExists yield success, and two successive CreateTable calls from
an empty admin state both succeed. -/
theorem createTable_idempotent_witness :
    createTableLogic (some ⟨.AlreadyExists, "x"⟩) (some ⟨.AlreadyExists, "y"⟩)
        = .ok ()
    ∧ (CreateTable ⟨[], []⟩ ⟨"t"⟩).1 = .ok ()
    ∧ (CreateTable (CreateTable ⟨[], []⟩ ⟨"t"⟩).2 ⟨"t"⟩).1 = .ok () :=
  ⟨createTable_idempotent.1 _ _ (by intro e h; cases h; rfl)
      (by intro e h; cases h; rfl),
    (createTable_idempotent.2.1 ⟨[], []⟩ ⟨"t"⟩).1,
    (createTable_idempotent.2.1 ⟨[], []⟩ ⟨"t"⟩).2⟩

/-! ## C7: the accumulated mutation of each chunk -/

/-- Claim C7: for every chunk of a PutChunks batch, the accumulated
mutation sets the fixed column family and column to the chunk's encoded
bytes, with the timestamp argument 0 that leaves version assignment to
the backing store (modelled from the spec: the timestamp semantics live
in the Bigtable client library, which is not among the sources). -/
theorem putChunks_mutation (sc : SchemaConfig) (chunks : List Chunk)
    (triples : List (String × String × Mutation))
    (h : putChunksAccum sc chunks = .ok triples) :
    triples.map (fun x => x.2.2)
      = chunks.map (fun c =>
          ({ family := columnFamily, col := column, ts := 0,
             value := c.encodeChunk } : Mutation)) := by
  induction chunks generalizing triples with
  | nil =>
    cases h
    rfl
  | cons c cs ih =>
    unfold putChunksAccum at h
    simp only [Chunk.Encoded] at h
    cases hroute : sc.ChunkTableFor c.From with
    | error e => rw [hroute] at h; cases h
    | ok t =>
      rw [hroute] at h
      cases hrest : putChunksAccum sc cs with
      | error e => rw [hrest] at h; cases h
      | ok rest =>
        rw [hrest] at h
        cases h
        simp [ih rest hrest]

/-- Witness for C7 at the demo batch. -/
theorem putChunks_mutation_witness :
    ∃ triples, putChunksAccum demoSchema [c1demo, c2demo] = .ok triples
      ∧ triples.map (fun x => x.2.2)
          = [⟨columnFamily, column, 0, c1demo.encodeChunk⟩,
             ⟨columnFamily, column, 0, c2demo.encodeChunk⟩] :=
  ⟨[("table1", c1demo.ExternalKey, ⟨columnFamily, column, 0, c1demo.encodeChunk⟩),
    ("table1", c2demo.ExternalKey, ⟨columnFamily, column, 0, c2demo.encodeChunk⟩)],
    rfl, putChunks_mutation demoSchema [c1demo, c2demo] _ rfl⟩

/-! ## C8: cancellation in the gathering loop -/

/-- Claim C8: when the select of the gathering loop delivers the
context's cancellation before all results have been gathered, the call
returns the context's error verbatim with no chunk slice, immediately:
whatever results are still pending behind the cancellation (the rest of
the event trace) are abandoned unread. -/
theorem getChunks_cancellation (n : Nat) (acc : List Chunk)
    (cs rest : List GEvent) (e : GoError)
    (hall : ∀ ev ∈ cs, ∃ c, ev = GEvent.chunk c)
    (hlen : cs.length < n) :
    gather n acc (cs ++ GEvent.ctxDone e :: rest)
      = some (.error (.ctxErr e)) := by
  induction cs generalizing n acc with
  | nil =>
    cases n with
    | zero => exact absurd hlen (by simp)
    | succ m => rfl
  | cons ev evs ih =>
    obtain ⟨c, rfl⟩ := hall ev (List.mem_cons_self _ _)
    cases n with
    | zero => exact absurd hlen (by omega)
    | succ m =>
      show gather m (acc ++ [c]) (evs ++ GEvent.ctxDone e :: rest) = _
      exact ih m (acc ++ [c]) (fun x hx => hall x (List.mem_cons_of_mem _ hx))
        (by simp only [List.length_cons] at hlen; omega)

/-- Witness for C8: a loop expecting two results that receives one chunk
and then the cancellation returns the context's error, ignoring a
pending result behind it. -/
theorem getChunks_cancellation_witness :
    gather 2 [] [GEvent.chunk c1demo, GEvent.ctxDone ⟨"context canceled"⟩,
        GEvent.chunk c2demo]
      = some (.error (.ctxErr ⟨"context canceled"⟩)) :=
  getChunks_cancellation 2 [] [GEvent.chunk c1demo]
    [GEvent.chunk c2demo] ⟨"context canceled"⟩
    (by intro ev h; simp at h; exact ⟨c1demo, h⟩) (by decide)

/-! ## C10: unguarded cell access in the read callback -/

/-- Claim C10: the read callback indexes the first cell of the fixed
column family without a guard; for a returned row whose key matches a
requested chunk, the access is total only when the row has at least one
cell in that family.  A matched row with no cell in the family panics
the page goroutine (modelled as the panicked run end) instead of sending
an error on the error channel, and the whole call is a runtime panic,
shown on a concrete store whose matched row has cells only in another
family. -/
theorem getChunks_cell_panic :
    (∀ (cm : List (String × Chunk)) (k : String) (r : Row) (c : Chunk)
        (rest : List (String × Row)),
        mapGet cm k = some c →
        Row.famCells r columnFamily = [] →
        runRows cm ((k, r) :: rest) = ([], .panicked))
    ∧ GetChunks demoSchema badRowStore [c1demo] = .panicked := by
  constructor
  · intro cm k r c rest hget hfam
    unfold runRows rowStep
    simp [hget, hfam]
  · decide

/-- Witness for C10's general part at a concrete matched row with no
cell in the fixed family. -/
theorem getChunks_cell_panic_witness :
    runRows [(c1demo.ExternalKey, c1demo)]
        [(c1demo.ExternalKey, [("other", [⟨column, c2demo.encodeChunk⟩])])]
      = ([], .panicked) :=
  getChunks_cell_panic.1 _ _ _ c1demo _ rfl rfl

/-! ## Association-map lemmas -/

theorem mapGet_mapSet_self {α : Type} (m : List (String × α)) (k : String)
    (v : α) : mapGet (mapSet m k v) k = some v := by
  induction m with
  | nil => simp [mapSet, mapGet]
  | cons p rest ih =>
    by_cases h : p.1 = k
    · simp [mapSet, mapGet, h]
    · simp only [mapSet, mapGet, h, if_false]
      exact ih

theorem mapGet_mapSet_ne {α : Type} (m : List (String × α)) (k k' : String)
    (v : α) (h : k' ≠ k) : mapGet (mapSet m k v) k' = mapGet m k' := by
  induction m with
  | nil =>
    simp only [mapSet, mapGet]
    rw [if_neg (fun hh => h hh.symm)]
  | cons p rest ih =>
    by_cases hp : p.1 = k
    · simp [mapSet, mapGet, hp, Ne.symm h]
    · simp only [mapSet, mapGet, hp, if_false]
      by_cases hp' : p.1 = k'
      · simp [hp']
      · simp [hp', ih]

/-! ## ListTables loop characterization -/

/-- Full characterization of a successful listLoop run whose per-table
metadata decision is stable (equal to an abstract decision function D):
the decision stays stable, the output appends exactly the tables whose
decision carries the family, every processed table has a successful
decision, tables whose decision lacks the family end up cached with that
decision, and cache entries of family-carrying or unprocessed tables are
untouched. -/
theorem listLoop_spec (cfg : Config) (backend : AdminBackend)
    (D : String → Except GrpcError TableInfo) :
    ∀ (tables out0 : List String) (st0 : TableClientState)
      (out : List String) (st' : TableClientState),
      listLoop cfg backend tables out0 st0 = (.ok out, st') →
      (∀ t, usedInfo cfg backend st0 t = D t) →
      (∀ t, usedInfo cfg backend st' t = D t)
      ∧ out = out0 ++ tables.filter (tableHasFamilyD D)
      ∧ (∀ t ∈ tables, ∃ info, D t = .ok info)
      ∧ (∀ t ∈ tables, ∀ info, D t = .ok info →
          hasColumnFamily info.FamilyInfos = false →
          mapGet st'.tableInfo t = some info)
      ∧ (∀ t ∈ tables, ∀ info, D t = .ok info →
          hasColumnFamily info.FamilyInfos = true →
          mapGet st'.tableInfo t = mapGet st0.tableInfo t)
      ∧ (∀ t, t ∉ tables → mapGet st'.tableInfo t = mapGet st0.tableInfo t) := by
  intro tables
  induction tables with
  | nil =>
    intro out0 st0 out st' h hD
    simp only [listLoop, Prod.mk.injEq, Except.ok.injEq] at h
    obtain ⟨rfl, rfl⟩ := h
    exact ⟨hD, by simp, by simp, by simp, by simp, fun _ _ => rfl⟩
  | cons table rest ih =>
    intro out0 st0 out st' h hD
    rw [show listLoop cfg backend (table :: rest) out0 st0
        = (match usedInfo cfg backend st0 table with
          | .error e => (.error ⟨"client.TableInfo", e⟩, st0)
          | .ok info =>
            if hasColumnFamily info.FamilyInfos then
              listLoop cfg backend rest (out0 ++ [table]) st0
            else
              listLoop cfg backend rest out0
                { st0 with tableInfo := mapSet st0.tableInfo table info })
      from rfl] at h
    cases hu : usedInfo cfg backend st0 table with
    | error e =>
      rw [hu] at h
      dsimp only at h
      simp at h
    | ok info =>
      rw [hu] at h
      dsimp only at h
      have hDt : D table = .ok info := (hD table).symm.trans hu
      by_cases hfam : hasColumnFamily info.FamilyInfos = true
      · rw [if_pos hfam] at h
        obtain ⟨s1, s2, s3, s4, s5, s6⟩ := ih (out0 ++ [table]) st0 out st' h hD
        refine ⟨s1, ?_, ?_, ?_, ?_, ?_⟩
        · rw [s2, List.filter_cons_of_pos (by simp [tableHasFamilyD, hDt, hfam])]
          simp
        · intro t ht
          rcases List.mem_cons.mp ht with rfl | ht'
          · exact ⟨info, hDt⟩
          · exact s3 t ht'
        · intro t ht info' hD' hlack
          rcases List.mem_cons.mp ht with rfl | ht'
          · rw [hDt] at hD'
            cases hD'
            rw [hlack] at hfam
            cases hfam
          · exact s4 t ht' info' hD' hlack
        · intro t ht info' hD' hhas
          rcases List.mem_cons.mp ht with rfl | ht'
          · by_cases hr : t ∈ rest
            · exact s5 t hr info' hD' hhas
            · exact s6 t hr
          · exact s5 t ht' info' hD' hhas
        · intro t ht
          exact s6 t (fun hr => ht (List.mem_cons_of_mem _ hr))
      · rw [if_neg hfam] at h
        have hfam' : hasColumnFamily info.FamilyInfos = false := by
          simpa using hfam
        set st1 : TableClientState :=
          { st0 with tableInfo := mapSet st0.tableInfo table info } with hst1
        have hD1 : ∀ t, usedInfo cfg backend st1 t = D t := by
          intro t
          by_cases he : t = table
          · subst he
            rw [← hD t]
            unfold usedInfo
            rw [hst1]
            simp only [mapGet_mapSet_self]
            cases hc : mapGet st0.tableInfo t with
            | some info0 =>
              by_cases hen : cfg.TableCacheEnabled = true
              · simp only [hen, if_true]
                have : usedInfo cfg backend st0 t = .ok info0 := by
                  unfold usedInfo
                  rw [hc]
                  simp [hen]
                rw [hu] at this
                cases this
                rfl
              · simp [hen]
            | none =>
              by_cases hen : cfg.TableCacheEnabled = true
              · simp only [hen, if_true]
                have : usedInfo cfg backend st0 t = backend.tableInfoResult t := by
                  unfold usedInfo
                  rw [hc]
                rw [hu] at this
                rw [← this]
              · simp [hen]
          · rw [← hD t]
            unfold usedInfo
            rw [hst1]
            simp only [mapGet_mapSet_ne st0.tableInfo table t info he]
        obtain ⟨s1, s2, s3, s4, s5, s6⟩ := ih out0 st1 out st' h hD1
        refine ⟨s1, ?_, ?_, ?_, ?_, ?_⟩
        · rw [s2, List.filter_cons_of_neg (by simp [tableHasFamilyD, hDt, hfam'])]
        · intro t ht
          rcases List.mem_cons.mp ht with rfl | ht'
          · exact ⟨info, hDt⟩
          · exact s3 t ht'
        · intro t ht info' hD' hlack
          rcases List.mem_cons.mp ht with rfl | ht'
          · rw [hDt] at hD'
            cases hD'
            by_cases hr : t ∈ rest
            · exact s4 t hr info hDt hlack
            · rw [s6 t hr, hst1]
              exact mapGet_mapSet_self _ _ _
          · exact s4 t ht' info' hD' hlack
        · intro t ht info' hD' hhas
          rcases List.mem_cons.mp ht with rfl | ht'
          · rw [hDt] at hD'
            cases hD'
            rw [hhas] at hfam'
            cases hfam'
          · have step : mapGet st1.tableInfo t = mapGet st0.tableInfo t := by
              rw [hst1]
              by_cases he : t = table
              · subst he
                rw [hDt] at hD'
                cases hD'
                rw [hhas] at hfam'
                cases hfam'
              · exact mapGet_mapSet_ne _ _ _ _ he
            by_cases hr : t ∈ rest
            · rw [s5 t hr info' hD' hhas, step]
            · rw [s6 t hr, step]
        · intro t ht
          have he : t ≠ table := fun hh => ht (hh ▸ List.mem_cons_self _ _)
          have hr : t ∉ rest := fun hh => ht (List.mem_cons_of_mem _ hh)
          rw [s6 t hr, hst1]
          exact mapGet_mapSet_ne _ _ _ _ he

/-- The cache refresh never introduces entries. -/
theorem refreshCache_inv (cfg : Config) (now : Int)
    (st : TableClientState) (h : CacheInv st) :
    CacheInv (refreshCache cfg now st) := by
  unfold refreshCache
  split
  · intro t info hget
    simp [mapGet] at hget
  · exact h

/-- Every run of the ListTables loop preserves the reachable-cache
invariant: the loop only writes metadata found to lack the family. -/
theorem listLoop_preserves_inv (cfg : Config) (backend : AdminBackend) :
    ∀ (tables out0 : List String) (st0 : TableClientState)
      (r : Except WrappedError (List String)) (st' : TableClientState),
      listLoop cfg backend tables out0 st0 = (r, st') →
      CacheInv st0 → CacheInv st' := by
  intro tables
  induction tables with
  | nil =>
    intro out0 st0 r st' h hinv
    simp only [listLoop, Prod.mk.injEq] at h
    exact h.2 ▸ hinv
  | cons table rest ih =>
    intro out0 st0 r st' h hinv
    rw [show listLoop cfg backend (table :: rest) out0 st0
        = (match usedInfo cfg backend st0 table with
          | .error e => (.error ⟨"client.TableInfo", e⟩, st0)
          | .ok info =>
            if hasColumnFamily info.FamilyInfos then
              listLoop cfg backend rest (out0 ++ [table]) st0
            else
              listLoop cfg backend rest out0
                { st0 with tableInfo := mapSet st0.tableInfo table info })
      from rfl] at h
    cases hu : usedInfo cfg backend st0 table with
    | error e =>
      rw [hu] at h
      dsimp only at h
      obtain ⟨-, rfl⟩ := Prod.mk.injEq .. ▸ h
      exact hinv
    | ok info =>
      rw [hu] at h
      dsimp only at h
      by_cases hfam : hasColumnFamily info.FamilyInfos = true
      · rw [if_pos hfam] at h
        exact ih _ _ _ _ h hinv
      · rw [if_neg hfam] at h
        refine ih _ _ _ _ h ?_
        intro t info' hget
        by_cases he : t = table
        · subst he
          rw [mapGet_mapSet_self] at hget
          cases hget
          simpa using hfam
        · rw [mapGet_mapSet_ne _ _ _ _ he] at hget
          exact hinv t info' hget

/-- A lookup of the purged key in a purged cache finds nothing. -/
theorem mapGet_mapDrop_self {α : Type} (m : List (String × α))
    (name : String) :
    mapGet (mapDrop m name) name = none := by
  induction m with
  | nil => rfl
  | cons p rest ih =>
    rcases p with ⟨k, w⟩
    by_cases hp : k = name
    · simpa [mapDrop, hp] using ih
    · simpa [mapDrop, mapGet, hp] using ih

/-- A lookup that succeeds in a cache purged of one key succeeds with
the same value in the original cache. -/
theorem mapGet_eraseKey {α : Type} (m : List (String × α))
    (name t : String) (v : α)
    (h : mapGet (mapDrop m name) t = some v) :
    mapGet m t = some v := by
  by_cases ht : t = name
  · subst ht
    rw [mapGet_mapDrop_self] at h
    cases h
  · revert h
    induction m with
    | nil =>
      intro h
      simp [mapDrop, mapGet] at h
    | cons p rest ih =>
      intro h
      rcases p with ⟨k, w⟩
      by_cases hp : k = name
      · rw [show mapDrop ((k, w) :: rest) name = mapDrop rest name from by
          simp [mapDrop, hp]] at h
        have hkt : ¬ k = t := by
          rw [hp]
          exact fun hh => ht hh.symm
        rw [show mapGet ((k, w) :: rest) t = mapGet rest t from if_neg hkt]
        exact ih h
      · rw [show mapDrop ((k, w) :: rest) name
            = (k, w) :: mapDrop rest name from by simp [mapDrop, hp]] at h
        by_cases hpt : k = t
        · simpa [mapGet, hpt] using h
        · simp only [mapGet, hpt, if_false] at h ⊢
          exact ih h

/-! ## C4: ListTables only returns tables with freshly verified family -/

/-- Claim C4: for every backing store and every reachable cache state —
reachability is captured by the invariant that all cached entries lack
the family, which holds initially and is preserved by ListTables (in
particular across cache expiration) and DeleteTable — every table
returned by a successful ListTables call carries the fixed column family
according to the backing store's current, freshly fetched metadata. -/
theorem listTables_fresh_family :
    CacheInv newTableClientState
    ∧ (∀ (cfg : Config) (backend : AdminBackend) (now : Int)
        (st : TableClientState) r st',
        ListTables cfg backend now st = (r, st') → CacheInv st → CacheInv st')
    ∧ (∀ (backend : AdminBackend) (name : String) (st : TableClientState)
        r st',
        DeleteTable backend name st = (r, st') → CacheInv st → CacheInv st')
    ∧ (∀ (cfg : Config) (backend : AdminBackend) (now : Int)
        (st : TableClientState) (out : List String) (st' : TableClientState),
        CacheInv st →
        ListTables cfg backend now st = (.ok out, st') →
        ∀ t ∈ out, ∃ info, backend.tableInfoResult t = .ok info
          ∧ hasColumnFamily info.FamilyInfos = true) := by
  refine ⟨?_, ?_, ?_, ?_⟩
  · intro t info h
    simp [newTableClientState, mapGet] at h
  · intro cfg backend now st r st' h hinv
    unfold ListTables at h
    cases hT : backend.tablesResult with
    | error e =>
      rw [hT] at h
      obtain ⟨-, rfl⟩ := Prod.mk.injEq .. ▸ h
      exact hinv
    | ok tables =>
      rw [hT] at h
      exact listLoop_preserves_inv cfg backend tables [] _ r st' h
        (refreshCache_inv cfg now st hinv)
  · intro backend name st r st' h hinv
    unfold DeleteTable at h
    cases hd : backend.deleteResult name with
    | error e =>
      rw [hd] at h
      obtain ⟨-, rfl⟩ := Prod.mk.injEq .. ▸ h
      exact hinv
    | ok u =>
      rw [hd] at h
      obtain ⟨-, rfl⟩ := Prod.mk.injEq .. ▸ h
      intro t info hget
      exact hinv t info (mapGet_eraseKey _ _ _ _ hget)
  · intro cfg backend now st out st' hinv h
    unfold ListTables at h
    cases hT : backend.tablesResult with
    | error e =>
      rw [hT] at h
      simp at h
    | ok tables =>
      rw [hT] at h
      obtain ⟨s1, s2, s3, s4, s5, s6⟩ :=
        listLoop_spec cfg backend
          (usedInfo cfg backend (refreshCache cfg now st))
          tables [] (refreshCache cfg now st) out st' h (fun _ => rfl)
      intro t ht
      rw [s2] at ht
      simp only [List.nil_append] at ht
      have hmem := List.mem_filter.mp ht
      have hpred := hmem.2
      unfold tableHasFamilyD at hpred
      cases hu : usedInfo cfg backend (refreshCache cfg now st) t with
      | error e => rw [hu] at hpred; cases hpred
      | ok info =>
        rw [hu] at hpred
        dsimp only at hpred
        refine ⟨info, ?_, hpred⟩
        unfold usedInfo at hu
        cases hc : mapGet (refreshCache cfg now st).tableInfo t with
        | none => rw [hc] at hu; exact hu
        | some cached =>
          rw [hc] at hu
          dsimp only at hu
          by_cases hen : cfg.TableCacheEnabled = true
          · rw [if_pos hen] at hu
            cases hu
            have := refreshCache_inv cfg now st hinv t info hc
            rw [hpred] at this
            cases this
          · rw [if_neg hen] at hu
            exact hu

/-- Witness for C4 at a concrete backend and the initial state: the one
listed table is returned and its freshly fetched metadata carries the
family. -/
theorem listTables_fresh_family_witness :
    ∃ info, backendDemo.tableInfoResult "t" = .ok info
      ∧ hasColumnFamily info.FamilyInfos = true :=
  listTables_fresh_family.2.2.2 cfgDemo backendDemo 1 newTableClientState
    ["t"] ⟨[], 11⟩ listTables_fresh_family.1 rfl "t" (by simp)

/-! ## C3: the cache side effect of ListTables -/

/-- Counterexample to C3 as stated: a successful ListTables call that
finds its only table to have the required family returns it but leaves
the cache without any entry for it — the cache is not repopulated with
entries for tables found to have the family. -/
theorem listTables_cache_counterexample :
    ListTables cfgDemo backendDemo 1 newTableClientState
        = (.ok ["t"], ⟨[], 11⟩)
    ∧ mapGet (⟨[], 11⟩ : TableClientState).tableInfo "t" = none :=
  ⟨rfl, rfl⟩

/-- Claim C3, amended to what the code does: after a successful
ListTables call the cache has been repopulated with the metadata of the
tables found to lack the required family (which are exactly the listed
tables excluded from the returned slice), while tables in the returned
slice get no cache entry from the call (their cache state is exactly
what the expiration check left). -/
theorem listTables_cache_effect (cfg : Config) (backend : AdminBackend)
    (now : Int) (st : TableClientState) (tables out : List String)
    (st' : TableClientState)
    (hT : backend.tablesResult = .ok tables)
    (h : ListTables cfg backend now st = (.ok out, st')) :
    (∀ t ∈ tables, t ∉ out →
      ∃ info, mapGet st'.tableInfo t = some info
        ∧ hasColumnFamily info.FamilyInfos = false)
    ∧ (∀ t ∈ out,
        mapGet st'.tableInfo t = mapGet (refreshCache cfg now st).tableInfo t) := by
  unfold ListTables at h
  rw [hT] at h
  obtain ⟨s1, s2, s3, s4, s5, s6⟩ :=
    listLoop_spec cfg backend
      (usedInfo cfg backend (refreshCache cfg now st))
      tables [] (refreshCache cfg now st) out st' h (fun _ => rfl)
  constructor
  · intro t ht hout
    obtain ⟨info, hD⟩ := s3 t ht
    by_cases hfam : hasColumnFamily info.FamilyInfos = true
    · exact absurd (by
        rw [s2]
        simp only [List.nil_append]
        exact List.mem_filter.mpr ⟨ht, by
          unfold tableHasFamilyD
          rw [hD]
          exact hfam⟩) hout
    · exact ⟨info, s4 t ht info hD (by simpa using hfam), by simpa using hfam⟩
  · intro t ht
    rw [s2] at ht
    simp only [List.nil_append] at ht
    have hmem := List.mem_filter.mp ht
    have hpred := hmem.2
    unfold tableHasFamilyD at hpred
    cases hu : usedInfo cfg backend (refreshCache cfg now st) t with
    | error e => rw [hu] at hpred; cases hpred
    | ok info =>
      rw [hu] at hpred
      dsimp only at hpred
      exact s5 t hmem.1 info hu hpred

/-! ## C6: the shard mapping -/

theorem hexChar_toNat_lt :
    ∀ m, m < 17 → ∀ n, n < 17 →
      ((hexChar m).toNat < (hexChar n).toNat ↔ m < n) := by decide

theorem hexChar_toNat_inj :
    ∀ m, m < 17 → ∀ n, n < 17 →
      ((hexChar m).toNat = (hexChar n).toNat ↔ m = n) := by decide

theorem hexChar_toNat_le :
    ∀ m, m < 17 → ∀ n, n < 17 →
      ((hexChar m).toNat ≤ (hexChar n).toNat ↔ m ≤ n) := by decide

theorem hexChar_inj :
    ∀ m, m < 17 → ∀ n, n < 17 → hexChar m = hexChar n → m = n := by decide

theorem hexChar_isHex : ∀ m, m < 16 → isHexDigit (hexChar m) = true := by
  decide

theorem hexChar_ne_zero : ∀ m, m < 16 → 1 ≤ m → ¬ hexChar m = '0' := by
  decide

theorem charListLe_pair (x1 x2 y1 y2 : Char) :
    (charListLe [x1, x2] [y1, y2] = true)
      ↔ (x1.toNat < y1.toNat
          ∨ (x1.toNat = y1.toNat ∧ x2.toNat ≤ y2.toNat)) := by
  show (if x1.toNat < y1.toNat then true
      else if y1.toNat < x1.toNat then false
      else if x2.toNat < y2.toNat then true
      else if y2.toNat < x2.toNat then false
      else true) = true ↔ _
  split_ifs with h1 h2 h3 h4 <;> simp <;> omega

theorem inShardRange_char (i d1 d2 : Nat) :
    inShardRange i (String.mk [hexChar d1, hexChar d2]) = true
      ↔ (charListLe [hexChar ((i + 16) / 16), hexChar ((i + 16) % 16)]
            [hexChar d1, hexChar d2] = true
        ∧ charListLe [hexChar ((i + 17) / 16), hexChar ((i + 17) % 16)]
            [hexChar d1, hexChar d2] = false) := by
  cases hA : charListLe [hexChar ((i + 16) / 16), hexChar ((i + 16) % 16)]
      [hexChar d1, hexChar d2]
    <;> cases hB : charListLe [hexChar ((i + 17) / 16), hexChar ((i + 17) % 16)]
        [hexChar d1, hexChar d2]
    <;> show ((charListLe [hexChar ((i + 16) / 16), hexChar ((i + 16) % 16)]
          [hexChar d1, hexChar d2])
        && !(charListLe [hexChar ((i + 17) / 16), hexChar ((i + 17) % 16)]
          [hexChar d1, hexChar d2])) = true ↔ _
    <;> rw [hA, hB] <;> simp

/-- Shard i's range contains the two-hex-digit prefix with digits
(d1, d2) exactly when i + 16 is the prefix's numeric value. -/
theorem inShardRange_iff (i : Nat) (hi : i < 240) (d1 : Nat) (hd1 : d1 < 16)
    (d2 : Nat) (hd2 : d2 < 16) :
    inShardRange i (String.mk [hexChar d1, hexChar d2]) = true
      ↔ i + 16 = 16 * d1 + d2 := by
  have e1 : 16 * ((i + 16) / 16) + (i + 16) % 16 = i + 16 :=
    Nat.div_add_mod _ _
  have e2 : 16 * ((i + 17) / 16) + (i + 17) % 16 = i + 17 :=
    Nat.div_add_mod _ _
  have m1 : (i + 16) % 16 < 16 := Nat.mod_lt _ (by norm_num)
  have m2 : (i + 17) % 16 < 16 := Nat.mod_lt _ (by norm_num)
  have q1 : (i + 16) / 16 < 17 := by
    rw [Nat.div_lt_iff_lt_mul (by norm_num)]
    omega
  have q2 : (i + 17) / 16 < 17 := by
    rw [Nat.div_lt_iff_lt_mul (by norm_num)]
    omega
  rw [inShardRange_char, Bool.eq_false_iff, ne_eq,
    charListLe_pair, charListLe_pair,
    hexChar_toNat_lt ((i + 16) / 16) q1 d1 (by omega),
    hexChar_toNat_inj ((i + 16) / 16) q1 d1 (by omega),
    hexChar_toNat_le ((i + 16) % 16) (by omega) d2 (by omega),
    hexChar_toNat_lt ((i + 17) / 16) q2 d1 (by omega),
    hexChar_toNat_inj ((i + 17) / 16) q2 d1 (by omega),
    hexChar_toNat_le ((i + 17) % 16) (by omega) d2 (by omega)]
  omega

theorem filter_unique (p : Nat → Bool) :
    ∀ (l : List Nat), l.Nodup → ∀ a ∈ l, p a = true →
      (∀ i ∈ l, p i = true → i = a) → (l.filter p).length = 1 := by
  intro l
  induction l with
  | nil => intro _ a ha; cases ha
  | cons x rest ih =>
    intro hnd a ha hp huniq
    have hnd' := List.nodup_cons.mp hnd
    rcases List.mem_cons.mp ha with rfl | ha'
    · rw [List.filter_cons_of_pos hp]
      rw [show List.filter p rest = [] from List.filter_eq_nil_iff.mpr ?_]
      · rfl
      · intro i hi hpi
        have := huniq i (List.mem_cons_of_mem _ hi) hpi
        subst this
        exact absurd hi hnd'.1
    · have hpx : ¬ p x = true := by
        intro hpx
        have := huniq x (List.mem_cons_self _ _) hpx
        subst this
        exact hnd'.1 ha'
      rw [List.filter_cons_of_neg hpx]
      exact ih hnd'.2 a ha' hp
        (fun i hi hpi => huniq i (List.mem_cons_of_mem _ hi) hpi)

/-- Claim C6: the shard mapping is injective on indices 0..239, its ends
are the prefixes 10 and ff, every image is a valid two-hex-character
prefix not starting with 0, and for every valid fingerprint prefix
(two hex digits, the first nonzero) exactly one shard's row-key range
[prefix, successor) contains it: the ranges partition the keyspace of
fingerprints not beginning with a zero nibble, with no gaps and no
overlaps. -/
theorem shard_partition :
    ((List.range 240).map shardHex).Nodup
    ∧ shardHex 0 = "10" ∧ shardHex 239 = "ff"
    ∧ (∀ i, i < 240 → isValidHexPair (shardHex i) = true)
    ∧ (∀ d1, d1 < 16 → ∀ d2, d2 < 16 → 1 ≤ d1 →
        ((List.range 240).filter
          (fun i => inShardRange i (String.mk [hexChar d1, hexChar d2]))).length
          = 1) := by
  refine ⟨?_, by decide, by decide, ?_, ?_⟩
  · refine List.Nodup.map_on ?_ (List.nodup_range 240)
    intro x hx y hy hf
    rw [List.mem_range] at hx hy
    unfold shardHex at hf
    have hdata : [hexChar ((x + 16) / 16), hexChar ((x + 16) % 16)]
        = [hexChar ((y + 16) / 16), hexChar ((y + 16) % 16)] :=
      congrArg String.data hf
    simp only [List.cons.injEq, and_true] at hdata
    have hqx : (x + 16) / 16 < 17 := by
      rw [Nat.div_lt_iff_lt_mul (by norm_num)]
      omega
    have hqy : (y + 16) / 16 < 17 := by
      rw [Nat.div_lt_iff_lt_mul (by norm_num)]
      omega
    have h1 := hexChar_inj _ hqx _ hqy hdata.1
    have h2 := hexChar_inj _ ((Nat.mod_lt _ (by norm_num)).trans (by norm_num))
      _ ((Nat.mod_lt _ (by norm_num)).trans (by norm_num)) hdata.2
    have ex : 16 * ((x + 16) / 16) + (x + 16) % 16 = x + 16 :=
      Nat.div_add_mod _ _
    have ey : 16 * ((y + 16) / 16) + (y + 16) % 16 = y + 16 :=
      Nat.div_add_mod _ _
    omega
  · intro i hi
    show isValidHexPair (String.mk
      [hexChar ((i + 16) / 16), hexChar ((i + 16) % 16)]) = true
    have hq : (i + 16) / 16 < 16 := by
      rw [Nat.div_lt_iff_lt_mul (by norm_num)]
      omega
    have hq1 : 1 ≤ (i + 16) / 16 := by
      rw [Nat.le_div_iff_mul_le (by norm_num)]
      omega
    have h1 := hexChar_isHex _ hq
    have h2 := hexChar_isHex ((i + 16) % 16) (Nat.mod_lt _ (by norm_num))
    have h3 := hexChar_ne_zero _ hq hq1
    show (isHexDigit (hexChar ((i + 16) / 16))
        && isHexDigit (hexChar ((i + 16) % 16))
        && decide (hexChar ((i + 16) / 16) ≠ '0')) = true
    have h3d : decide (hexChar ((i + 16) / 16) ≠ '0') = true :=
      decide_eq_true h3
    rw [h1, h2, h3d]
    rfl
  · intro d1 hd1 d2 hd2 h1le
    refine filter_unique _ (List.range 240) (List.nodup_range _)
      (16 * d1 + d2 - 16) ?_ ?_ ?_
    · rw [List.mem_range]
      omega
    · rw [inShardRange_iff _ (by omega) _ hd1 _ hd2]
      omega
    · intro i hi hpi
      rw [List.mem_range] at hi
      rw [inShardRange_iff _ hi _ hd1 _ hd2] at hpi
      omega

/-- Witness for C6's bounded-quantifier parts at concrete values: shard
3 is a valid prefix, and the prefix ab (digits 10 and 11) lies in
exactly one shard's range. -/
theorem shard_partition_witness :
    isValidHexPair (shardHex 3) = true
    ∧ ((List.range 240).filter
        (fun i => inShardRange i (String.mk [hexChar 10, hexChar 11]))).length
        = 1 :=
  ⟨shard_partition.2.2.2.1 3 (by decide),
    shard_partition.2.2.2.2 10 (by decide) 11 (by decide) (by decide)⟩

/-- Witness for C3's amended claim at a concrete backend with one table
lacking the family and one having it: the lacking table is cached with
its family-less metadata, and the returned table's cache state equals
the refreshed (empty) cache's. -/
theorem listTables_cache_effect_witness :
    (∃ info, mapGet (⟨[("bare", ⟨[⟨"o"⟩]⟩)], 11⟩ : TableClientState).tableInfo
        "bare" = some info ∧ hasColumnFamily info.FamilyInfos = false)
    ∧ mapGet (⟨[("bare", ⟨[⟨"o"⟩]⟩)], 11⟩ : TableClientState).tableInfo "good"
        = mapGet (refreshCache cfgDemo 1 newTableClientState).tableInfo "good" :=
  ⟨(listTables_cache_effect cfgDemo backendDemo2 1 newTableClientState
      ["bare", "good"] ["good"] ⟨[("bare", ⟨[⟨"o"⟩]⟩)], 11⟩ rfl rfl).1
      "bare" (by simp) (by simp),
    (listTables_cache_effect cfgDemo backendDemo2 1 newTableClientState
      ["bare", "good"] ["good"] ⟨[("bare", ⟨[⟨"o"⟩]⟩)], 11⟩ rfl rfl).2
      "good" (by simp)⟩

/-! ## Pagination lemmas -/

theorem paginateGo_flatten {α : Type} :
    ∀ (fuel : Nat) (l : List α), l.length ≤ fuel →
      (paginateGo fuel l).flatten = l := by
  intro fuel
  induction fuel with
  | zero =>
    intro l h
    cases l with
    | nil => rfl
    | cons a as => simp at h
  | succ fuel ih =>
    intro l h
    cases l with
    | nil => rfl
    | cons a as =>
      show ((a :: as).take maxRowReads
          :: paginateGo fuel ((a :: as).drop maxRowReads)).flatten = a :: as
      have hmax : 1 ≤ maxRowReads := by decide
      rw [List.flatten_cons, ih ((a :: as).drop maxRowReads)
        (by simp only [List.length_drop, List.length_cons] at h ⊢; omega)]
      exact List.take_append_drop _ _

theorem paginate_flatten {α : Type} (l : List α) :
    (paginate l).flatten = l :=
  paginateGo_flatten l.length l (Nat.le_refl _)

theorem paginateGo_map {α β : Type} (f : α → β) :
    ∀ (fuel : Nat) (l : List α),
      paginateGo fuel (l.map f) = (paginateGo fuel l).map (List.map f) := by
  intro fuel
  induction fuel with
  | zero =>
    intro l
    cases l with
    | nil => rfl
    | cons a as => rfl
  | succ fuel ih =>
    intro l
    cases l with
    | nil => rfl
    | cons a as =>
      show (((a :: as).map f).take maxRowReads
            :: paginateGo fuel (((a :: as).map f).drop maxRowReads))
          = _
      rw [← List.map_take, ← List.map_drop, ih]
      rfl

theorem paginate_map {α β : Type} (f : α → β) (l : List α) :
    paginate (l.map f) = (paginate l).map (List.map f) := by
  unfold paginate
  rw [List.length_map]
  exact paginateGo_map f l.length l

theorem paginateGo_sublist {α : Type} :
    ∀ (fuel : Nat) (l p : List α), p ∈ paginateGo fuel l → p.Sublist l := by
  intro fuel
  induction fuel with
  | zero =>
    intro l p h
    cases l with
    | nil => simp [paginateGo] at h
    | cons a as => simp [paginateGo] at h
  | succ fuel ih =>
    intro l p h
    cases l with
    | nil => simp [paginateGo] at h
    | cons a as =>
      rw [show paginateGo (fuel + 1) (a :: as)
          = (a :: as).take maxRowReads
            :: paginateGo fuel ((a :: as).drop maxRowReads) from rfl] at h
      rcases List.mem_cons.mp h with rfl | h'
      · exact List.take_sublist _ _
      · exact (ih _ p h').trans (List.drop_sublist _ _)

theorem paginate_sublist {α : Type} (l p : List α) (h : p ∈ paginate l) :
    p.Sublist l :=
  paginateGo_sublist l.length l p h

theorem paginateGo_length_le {α : Type} :
    ∀ (fuel : Nat) (l : List α), l.length ≤ fuel →
      (paginateGo fuel l).length ≤ l.length := by
  intro fuel
  induction fuel with
  | zero =>
    intro l h
    cases l with
    | nil => simp [paginateGo]
    | cons a as => simp at h
  | succ fuel ih =>
    intro l h
    cases l with
    | nil => simp [paginateGo]
    | cons a as =>
      rw [show paginateGo (fuel + 1) (a :: as)
          = (a :: as).take maxRowReads
            :: paginateGo fuel ((a :: as).drop maxRowReads) from rfl]
      have hmax : 1 ≤ maxRowReads := by decide
      have hd : ((a :: as).drop maxRowReads).length ≤ fuel := by
        simp only [List.length_drop, List.length_cons] at h ⊢
        omega
      have := ih _ hd
      simp only [List.length_cons, List.length_drop] at this ⊢
      omega

theorem paginate_length_le {α : Type} (l : List α) :
    (paginate l).length ≤ l.length :=
  paginateGo_length_le l.length l (Nat.le_refl _)

theorem paginate_sum_length {α : Type} (l : List α) :
    ((paginate l).map List.length).sum = l.length := by
  rw [← List.length_flatten, paginate_flatten]

/-! ## Grouping lemmas -/

theorem assocAppend_flatten_perm {α : Type}
    (acc : List (String × List α)) (t : String) (c : α) :
    (((assocAppend acc t c).map (·.2)).flatten).Perm
      ((acc.map (·.2)).flatten ++ [c]) := by
  induction acc with
  | nil => simp [assocAppend]
  | cons p rest ih =>
    by_cases hp : p.1 = t
    · rw [show assocAppend (p :: rest) t c = (p.1, p.2 ++ [c]) :: rest from by
        simp [assocAppend, hp]]
      simp only [List.map_cons, List.flatten_cons, List.append_assoc]
      exact (List.perm_append_left_iff _).mpr List.perm_append_comm
    · rw [show assocAppend (p :: rest) t c
          = p :: assocAppend rest t c from by simp [assocAppend, hp]]
      simp only [List.map_cons, List.flatten_cons, List.append_assoc]
      exact (List.perm_append_left_iff _).mpr ih

theorem assocAppend_inv {α : Type} (R : α → String → Prop)
    (acc : List (String × List α)) (t : String) (c : α)
    (hacc : ∀ p ∈ acc, ∀ x ∈ p.2, R x p.1) (hc : R c t) :
    ∀ p ∈ assocAppend acc t c, ∀ x ∈ p.2, R x p.1 := by
  induction acc with
  | nil =>
    intro p hp x hx
    simp only [assocAppend, List.mem_singleton] at hp
    subst hp
    simp only [List.mem_singleton] at hx
    subst hx
    exact hc
  | cons q rest ih =>
    by_cases hq : q.1 = t
    · rw [show assocAppend (q :: rest) t c = (q.1, q.2 ++ [c]) :: rest from by
        simp [assocAppend, hq]]
      intro p hp x hx
      rcases List.mem_cons.mp hp with rfl | hp'
      · rcases List.mem_append.mp hx with hx' | hx'
        · exact hacc q (List.mem_cons_self _ _) x hx'
        · simp only [List.mem_singleton] at hx'
          subst hx'
          exact hq ▸ hc
      · exact hacc p (List.mem_cons_of_mem _ hp') x hx
    · rw [show assocAppend (q :: rest) t c
          = q :: assocAppend rest t c from by simp [assocAppend, hq]]
      intro p hp x hx
      rcases List.mem_cons.mp hp with rfl | hp'
      · exact hacc p (List.mem_cons_self _ _) x hx
      · exact ih (fun r hr => hacc r (List.mem_cons_of_mem _ hr)) p hp' x hx

theorem getGroupGo_flatten_perm (sc : SchemaConfig) :
    ∀ (l : List Chunk) (acc groups : List (String × List Chunk)),
      getGroupGo sc acc l = .ok groups →
      ((groups.map (·.2)).flatten).Perm ((acc.map (·.2)).flatten ++ l) := by
  intro l
  induction l with
  | nil =>
    intro acc groups h
    cases h
    simp
  | cons c cs ih =>
    intro acc groups h
    unfold getGroupGo at h
    cases hr : sc.ChunkTableFor c.From with
    | error e => rw [hr] at h; cases h
    | ok t =>
      rw [hr] at h
      have := ih (assocAppend acc t c) groups h
      refine this.trans ?_
      have h1 := assocAppend_flatten_perm acc t c
      refine (h1.append_right cs).trans ?_
      rw [List.append_assoc]
      exact (List.perm_append_left_iff _).mpr (List.perm_middle.symm.trans
        (by simp))

theorem getGroupGo_inv (sc : SchemaConfig) :
    ∀ (l : List Chunk) (acc groups : List (String × List Chunk)),
      getGroupGo sc acc l = .ok groups →
      (∀ p ∈ acc, ∀ x ∈ p.2, sc.ChunkTableFor x.From = .ok p.1) →
      ∀ p ∈ groups, ∀ x ∈ p.2, sc.ChunkTableFor x.From = .ok p.1 := by
  intro l
  induction l with
  | nil =>
    intro acc groups h hacc
    cases h
    exact hacc
  | cons c cs ih =>
    intro acc groups h hacc
    unfold getGroupGo at h
    cases hr : sc.ChunkTableFor c.From with
    | error e => rw [hr] at h; cases h
    | ok t =>
      rw [hr] at h
      exact ih _ groups h
        (assocAppend_inv (fun x u => sc.ChunkTableFor x.From = .ok u)
          acc t c hacc hr)

theorem getGroupGo_ok_of_routes (sc : SchemaConfig) :
    ∀ (l : List Chunk),
      (∀ c ∈ l, ∃ t, sc.ChunkTableFor c.From = .ok t) →
      ∀ acc, ∃ groups, getGroupGo sc acc l = .ok groups := by
  intro l
  induction l with
  | nil =>
    intro _ acc
    exact ⟨acc, rfl⟩
  | cons c cs ih =>
    intro hall acc
    obtain ⟨t, ht⟩ := hall c (List.mem_cons_self _ _)
    obtain ⟨groups, hg⟩ :=
      ih (fun x hx => hall x (List.mem_cons_of_mem _ hx)) (assocAppend acc t c)
    refine ⟨groups, ?_⟩
    unfold getGroupGo
    rw [ht]
    exact hg

/-! ## Write-path lemmas -/

theorem putChunksAccum_spec (sc : SchemaConfig) :
    ∀ (l : List Chunk) (tr : List (String × String × Mutation)),
      putChunksAccum sc l = .ok tr →
      List.Forall₂ (fun c x => sc.ChunkTableFor c.From = .ok x.1
        ∧ x.2.1 = c.ExternalKey ∧ x.2.2 = mkMut c) l tr := by
  intro l
  induction l with
  | nil =>
    intro tr h
    cases h
    exact List.Forall₂.nil
  | cons c cs ih =>
    intro tr h
    unfold putChunksAccum at h
    simp only [Chunk.Encoded] at h
    cases hr : sc.ChunkTableFor c.From with
    | error e => rw [hr] at h; cases h
    | ok t =>
      rw [hr] at h
      cases hrest : putChunksAccum sc cs with
      | error e => rw [hrest] at h; cases h
      | ok rest =>
        rw [hrest] at h
        cases h
        exact List.Forall₂.cons ⟨hr, rfl, rfl⟩ (ih rest hrest)

theorem forall₂_right_mem {α β : Type} (R : α → β → Prop) :
    ∀ (l : List α) (tr : List β), List.Forall₂ R l tr →
      ∀ x ∈ tr, ∃ c ∈ l, R c x := by
  intro l tr h
  induction h with
  | nil => intro x hx; cases hx
  | cons hr hrest ih =>
    intro x hx
    rcases List.mem_cons.mp hx with rfl | hx'
    · exact ⟨_, List.mem_cons_self _ _, hr⟩
    · obtain ⟨c, hc, hR⟩ := ih x hx'
      exact ⟨c, List.mem_cons_of_mem _ hc, hR⟩

theorem applyBulk_ne (s : Store) (table : String)
    (ps : List (String × Mutation)) (t k : String) (h : t ≠ table) :
    applyBulk s table ps t k = s t k := by
  induction ps generalizing s with
  | nil => rfl
  | cons p rest ih =>
    rcases p with ⟨k0, m⟩
    show applyBulk (applyMutation s table k0 m) table rest t k = s t k
    rw [ih (applyMutation s table k0 m)]
    show (if t = table ∧ k = k0 then _ else s t k) = s t k
    rw [if_neg (fun hh => h hh.1)]

theorem applyBulk_point (s : Store) (table : String)
    (ps : List (String × Mutation)) (k : String) :
    applyBulk s table ps table k
      = applyMuts (s table k) ((ps.filter (fun p => p.1 = k)).map (·.2)) := by
  induction ps generalizing s with
  | nil => rfl
  | cons p rest ih =>
    rcases p with ⟨k0, m⟩
    show applyBulk (applyMutation s table k0 m) table rest table k = _
    rw [ih (applyMutation s table k0 m)]
    by_cases hk : k0 = k
    · subst hk
      rw [show (List.filter (fun p => decide (p.1 = k0)) ((k0, m) :: rest))
          = (k0, m) :: List.filter (fun p => decide (p.1 = k0)) rest from by
        simp [List.filter]]
      show applyMuts ((applyMutation s table k0 m) table k0) _
          = applyMuts (some (Row.setCell ((s table k0).getD [])
              m.family m.col m.value)) _
      congr 1
      show (if table = table ∧ k0 = k0 then _ else _) = _
      rw [if_pos ⟨rfl, rfl⟩]
    · rw [show (List.filter (fun p => decide (p.1 = k)) ((k0, m) :: rest))
          = List.filter (fun p => decide (p.1 = k)) rest from by
        simp [List.filter, hk]]
      congr 1
      show (if table = table ∧ k = k0 then _ else s table k) = s table k
      rw [if_neg (fun hh => hk hh.2.symm)]

theorem foldl_tables_ne (self : List (String × String × Mutation))
    (t k : String) :
    ∀ (ts : List String) (s : Store), t ∉ ts →
      (ts.foldl (fun s u => applyBulk s u (perTable self u)) s) t k
        = s t k := by
  intro ts
  induction ts with
  | nil => intro s _; rfl
  | cons u rest ih =>
    intro s ht
    have hu : t ≠ u := fun hh => ht (hh ▸ List.mem_cons_self _ _)
    have hr : t ∉ rest := fun hh => ht (List.mem_cons_of_mem _ hh)
    show (rest.foldl _ (applyBulk s u (perTable self u))) t k = s t k
    rw [ih _ hr]
    exact applyBulk_ne _ _ _ _ _ hu

theorem foldl_tables_mem (self : List (String × String × Mutation))
    (t k : String) :
    ∀ (ts : List String) (s : Store), ts.Nodup → t ∈ ts →
      (ts.foldl (fun s u => applyBulk s u (perTable self u)) s) t k
        = applyMuts (s t k)
            (((perTable self t).filter (fun p => p.1 = k)).map (·.2)) := by
  intro ts
  induction ts with
  | nil => intro s _ h; cases h
  | cons u rest ih =>
    intro s hnd hmem
    have hnd' := List.nodup_cons.mp hnd
    rcases List.mem_cons.mp hmem with rfl | hmem'
    · show (rest.foldl _ (applyBulk s t (perTable self t))) t k = _
      rw [foldl_tables_ne self t k rest _ hnd'.1]
      exact applyBulk_point _ _ _ _
    · have hu : t ≠ u := fun hh => hnd'.1 (hh ▸ hmem')
      show (rest.foldl _ (applyBulk s u (perTable self u))) t k = _
      rw [ih _ hnd'.2 hmem', applyBulk_ne _ _ _ _ _ hu]

theorem perTable_filter (l : List (String × String × Mutation))
    (t k : String) :
    ((perTable l t).filter (fun p => p.1 = k)).map (·.2) = mutsAt l t k := by
  induction l with
  | nil => rfl
  | cons x rest ih =>
    unfold perTable mutsAt at ih ⊢
    by_cases h1 : x.1 = t <;> by_cases h2 : x.2.1 = k <;>
      simp [List.filter_cons, h1, h2, ih]

theorem putApply_point (s : Store) (l : List (String × String × Mutation))
    (t k : String) :
    putApply s l t k = applyMuts (s t k) (mutsAt l t k) := by
  unfold putApply
  by_cases hmem : t ∈ tablesIn l
  · rw [foldl_tables_mem l t k (tablesIn l) s (List.nodup_dedup _) hmem]
    rw [perTable_filter]
  · rw [foldl_tables_ne l t k (tablesIn l) s hmem]
    have : mutsAt l t k = [] := by
      unfold mutsAt
      rw [List.filter_eq_nil_iff.mpr, List.map_nil]
      intro x hx hpx
      refine hmem ?_
      unfold tablesIn
      rw [List.mem_dedup]
      have : x.1 = t := by
        simpa using (of_decide_eq_true (by simpa using hpx) : x.1 = t ∧ _).1
      exact this ▸ List.mem_map_of_mem (·.1) hx
    rw [this]
    rfl

theorem mutsAt_singleton (sc : SchemaConfig) :
    ∀ (input : List Chunk) (tr : List (String × String × Mutation)),
      List.Forall₂ (fun c x => sc.ChunkTableFor c.From = .ok x.1
        ∧ x.2.1 = c.ExternalKey ∧ x.2.2 = mkMut c) input tr →
      (input.map Chunk.ExternalKey).Nodup →
      ∀ c ∈ input, ∀ t, sc.ChunkTableFor c.From = .ok t →
        mutsAt tr t c.ExternalKey = [mkMut c] := by
  intro input tr h
  induction h with
  | nil =>
    intro _ c hc
    cases hc
  | @cons c0 x0 l' tr' hR hrest ih =>
    intro hnd c hc t ht
    have hnd' := by
      rw [List.map_cons, List.nodup_cons] at hnd
      exact hnd
    rcases List.mem_cons.mp hc with rfl | hc'
    · have hx1 : x0.1 = t := by
        rw [hR.1] at ht
        cases ht
        rfl
      have hkey : x0.2.1 = c.ExternalKey := hR.2.1
      unfold mutsAt
      rw [show List.filter (fun x => decide (x.1 = t ∧ x.2.1 = c.ExternalKey))
            (x0 :: tr')
          = x0 :: List.filter
              (fun x => decide (x.1 = t ∧ x.2.1 = c.ExternalKey)) tr' from by
        simp [List.filter, hx1, hkey]]
      rw [show List.filter (fun x => decide (x.1 = t ∧ x.2.1 = c.ExternalKey))
            tr' = [] from ?_]
      · rw [List.map_cons, List.map_nil, hR.2.2]
      · rw [List.filter_eq_nil_iff]
        intro x hx hpx
        obtain ⟨c', hc', hR'⟩ := forall₂_right_mem _ l' tr' hrest x hx
        have hxk : x.2.1 = c.ExternalKey :=
          (of_decide_eq_true hpx).2
        rw [hR'.2.1] at hxk
        exact hnd'.1 (hxk ▸ List.mem_map_of_mem Chunk.ExternalKey hc')
    · unfold mutsAt
      rw [show List.filter (fun x => decide (x.1 = t ∧ x.2.1 = c.ExternalKey))
            (x0 :: tr')
          = List.filter (fun x => decide (x.1 = t ∧ x.2.1 = c.ExternalKey))
              tr' from ?_]
      · exact ih hnd'.2 c hc' t ht
      · rw [List.filter_cons_of_neg]
        intro hpx
        have hxk : x0.2.1 = c.ExternalKey := (of_decide_eq_true hpx).2
        rw [hR.2.1] at hxk
        exact hnd'.1 (hxk ▸ List.mem_map_of_mem Chunk.ExternalKey hc')

/-- The store a successful PutChunks leaves behind, at each written
chunk's cell: exactly one cell in the fixed family and column holding
the chunk's encoded bytes (keys assumed pairwise distinct). -/
theorem store_after_put (sc : SchemaConfig) (input : List Chunk)
    (tr : List (String × String × Mutation))
    (hacc : putChunksAccum sc input = .ok tr)
    (hnd : (input.map Chunk.ExternalKey).Nodup)
    (c : Chunk) (hc : c ∈ input) (t : String)
    (ht : sc.ChunkTableFor c.From = .ok t) :
    putApply emptyStore tr t c.ExternalKey = some (singleRow c) := by
  rw [putApply_point]
  rw [mutsAt_singleton sc input tr (putChunksAccum_spec sc input tr hacc)
    hnd c hc t ht]
  rfl

/-! ## Chunk-map lemmas -/

theorem mapSet_append_of_not_mem {α : Type} (m : List (String × α))
    (k : String) (v : α) (h : k ∉ m.map (·.1)) :
    mapSet m k v = m ++ [(k, v)] := by
  induction m with
  | nil => rfl
  | cons p rest ih =>
    simp only [List.map_cons, List.mem_cons] at h
    push_neg at h
    show (if p.1 = k then _ else p :: mapSet rest k v) = _
    rw [if_neg (fun hh => h.1 hh.symm), ih h.2]
    rfl

theorem chunksMap_foldl (chs : List Chunk) :
    ∀ (acc : List (String × Chunk)),
      ((acc.map (·.1)) ++ chs.map Chunk.ExternalKey).Nodup →
      chs.foldl (fun m c => mapSet m c.ExternalKey c) acc
        = acc ++ chs.map (fun c => (c.ExternalKey, c)) := by
  induction chs with
  | nil =>
    intro acc _
    simp
  | cons c cs ih =>
    intro acc hnd
    have hkc : c.ExternalKey ∉ acc.map (·.1) := by
      intro hmem
      have := (List.nodup_append.mp hnd).2.2
      exact this hmem (by simp)
    show cs.foldl _ (mapSet acc c.ExternalKey c) = _
    rw [mapSet_append_of_not_mem acc c.ExternalKey c hkc]
    rw [ih (acc ++ [(c.ExternalKey, c)]) (by
      simpa [List.append_assoc] using hnd)]
    simp

theorem chunksMap_eq (chs : List Chunk)
    (hnd : (chs.map Chunk.ExternalKey).Nodup) :
    chunksMap chs = chs.map (fun c => (c.ExternalKey, c)) := by
  unfold chunksMap
  rw [chunksMap_foldl chs [] (by simpa using hnd)]
  rfl

theorem mapGet_map_pair (chs : List Chunk)
    (hnd : (chs.map Chunk.ExternalKey).Nodup) (c : Chunk) (hc : c ∈ chs) :
    mapGet (chs.map (fun c => (c.ExternalKey, c))) c.ExternalKey = some c := by
  induction chs with
  | nil => cases hc
  | cons c0 cs ih =>
    rw [List.map_cons, List.nodup_cons] at hnd
    rcases List.mem_cons.mp hc with rfl | hc'
    · show (if c.ExternalKey = c.ExternalKey then some c else _) = some c
      rw [if_pos rfl]
    · have hne : ¬ c0.ExternalKey = c.ExternalKey := by
        intro hh
        exact hnd.1 (hh ▸ List.mem_map_of_mem Chunk.ExternalKey hc')
      show (if c0.ExternalKey = c.ExternalKey then some c0 else _) = some c
      rw [if_neg hne]
      exact ih hnd.2 hc'

/-! ## Read-path lemmas -/

theorem sortKeys_perm (ks : List String) (h : ks.Nodup) :
    (sortKeys ks).Perm ks := by
  unfold sortKeys
  rw [List.dedup_eq_self.mpr h]
  exact List.perm_insertionSort _ _

theorem filterMap_all_present (store : Store) (t : String)
    (rowOf : String → Row) :
    ∀ (ks : List String), (∀ k ∈ ks, store t k = some (rowOf k)) →
      ks.filterMap (fun k => (store t k).map (fun r => (k, r)))
        = ks.map (fun k => (k, rowOf k)) := by
  intro ks
  induction ks with
  | nil => intro _; rfl
  | cons k rest ih =>
    intro h
    rw [List.filterMap_cons, h k (List.mem_cons_self _ _)]
    rw [ih (fun x hx => h x (List.mem_cons_of_mem _ hx))]
    rfl

theorem runRows_map_ok (cm : List (String × Chunk)) (rowOf : String → Row)
    (chunkOf : String → Chunk) :
    ∀ (ks : List String),
      (∀ k ∈ ks, rowStep cm (k, rowOf k) = .ok (chunkOf k)) →
      runRows cm (ks.map (fun k => (k, rowOf k)))
        = (ks.map chunkOf, .done) := by
  intro ks
  induction ks with
  | nil => intro _; rfl
  | cons k rest ih =>
    intro h
    rw [List.map_cons]
    rw [show runRows cm ((k, rowOf k) :: rest.map (fun k => (k, rowOf k)))
        = (match rowStep cm (k, rowOf k) with
          | .ok c =>
            (c :: (runRows cm (rest.map (fun k => (k, rowOf k)))).1,
              (runRows cm (rest.map (fun k => (k, rowOf k)))).2)
          | .stopUnknown k' => ([], .unknown k')
          | .stopPanic => ([], .panicked)
          | .stopDecode e => ([], .decodeFail e)) from rfl]
    rw [h k (List.mem_cons_self _ _),
      ih (fun x hx => h x (List.mem_cons_of_mem _ hx))]
    rfl

theorem rowStep_single (cm : List (String × Chunk)) (k : String) (c : Chunk)
    (h : mapGet cm k = some c) : rowStep cm (k, singleRow c) = .ok c := by
  unfold rowStep
  rw [h]
  rfl

theorem runRows_sent_le (cm : List (String × Chunk)) :
    ∀ (rows : List (String × Row)),
      (runRows cm rows).1.length ≤ rows.length := by
  intro rows
  induction rows with
  | nil => exact Nat.le_refl _
  | cons kr rest ih =>
    rw [show runRows cm (kr :: rest)
        = (match rowStep cm kr with
          | .ok c => (c :: (runRows cm rest).1, (runRows cm rest).2)
          | .stopUnknown k' => ([], .unknown k')
          | .stopPanic => ([], .panicked)
          | .stopDecode e => ([], .decodeFail e)) from rfl]
    cases rowStep cm kr with
    | ok c => simpa using ih
    | stopUnknown k => simp
    | stopPanic => simp
    | stopDecode e => simp

theorem readRows_length_le (store : Store) (t : String) (ks : List String) :
    (readRows store t ks).length ≤ ks.length := by
  unfold readRows
  calc (List.filterMap _ (sortKeys ks)).length
      ≤ (sortKeys ks).length := List.length_filterMap_le _ _
    _ = ks.dedup.length := List.length_insertionSort _ _
    _ ≤ ks.length := (List.dedup_sublist ks).length_le

/-- The run of one page of a table whose chunks all sit in the store as
PutChunks left them: every row decodes back to its requested chunk, the
loop ends cleanly, and the sent chunks are a permutation of the page. -/
theorem page_run_clean (store : Store) (t : String) (chs : List Chunk)
    (hnd : (chs.map Chunk.ExternalKey).Nodup)
    (hstore : ∀ c ∈ chs, store t c.ExternalKey = some (singleRow c))
    (p : List Chunk) (hp : p ∈ paginate chs) :
    runRows (chunksMap chs) (readRows store t (p.map Chunk.ExternalKey))
        = ((sortKeys (p.map Chunk.ExternalKey)).map
            (fun k => (mapGet (chunksMap chs) k).getD default), .done)
      ∧ ((sortKeys (p.map Chunk.ExternalKey)).map
          (fun k => (mapGet (chunksMap chs) k).getD default)).Perm p := by
  have hsub : p.Sublist chs := paginate_sublist chs p hp
  have hpnd : (p.map Chunk.ExternalKey).Nodup :=
    List.Nodup.sublist (hsub.map _) hnd
  have hcmeq : chunksMap chs = chs.map (fun c => (c.ExternalKey, c)) :=
    chunksMap_eq chs hnd
  have hget : ∀ c ∈ p, mapGet (chunksMap chs) c.ExternalKey = some c := by
    intro c hc
    rw [hcmeq]
    exact mapGet_map_pair chs hnd c (hsub.subset hc)
  set chunkOf : String → Chunk :=
    fun k => (mapGet (chunksMap chs) k).getD default with hchunkOf
  have hchunk : ∀ c ∈ p, chunkOf c.ExternalKey = c := by
    intro c hc
    rw [hchunkOf]
    simp only [hget c hc, Option.getD_some]
  have hsorted := sortKeys_perm (p.map Chunk.ExternalKey) hpnd
  have hmemp : ∀ k ∈ sortKeys (p.map Chunk.ExternalKey),
      ∃ c ∈ p, c.ExternalKey = k := by
    intro k hk
    have : k ∈ p.map Chunk.ExternalKey := hsorted.mem_iff.mp hk
    obtain ⟨c, hc, rfl⟩ := List.mem_map.mp this
    exact ⟨c, hc, rfl⟩
  have hpresent : ∀ k ∈ sortKeys (p.map Chunk.ExternalKey),
      store t k = some (singleRow (chunkOf k)) := by
    intro k hk
    obtain ⟨c, hc, rfl⟩ := hmemp k hk
    rw [hchunk c hc]
    exact hstore c (hsub.subset hc)
  have hrows : readRows store t (p.map Chunk.ExternalKey)
      = (sortKeys (p.map Chunk.ExternalKey)).map
          (fun k => (k, singleRow (chunkOf k))) := by
    unfold readRows
    exact filterMap_all_present store t (fun k => singleRow (chunkOf k))
      _ hpresent
  have hstep : ∀ k ∈ sortKeys (p.map Chunk.ExternalKey),
      rowStep (chunksMap chs) (k, singleRow (chunkOf k))
        = .ok (chunkOf k) := by
    intro k hk
    obtain ⟨c, hc, rfl⟩ := hmemp k hk
    rw [hchunk c hc]
    exact rowStep_single _ _ c (hget c hc)
  constructor
  · rw [hrows]
    exact runRows_map_ok (chunksMap chs) (fun k => singleRow (chunkOf k))
      chunkOf _ hstep
  · refine (hsorted.map chunkOf).trans ?_
    rw [List.map_map]
    have : ∀ c ∈ p, (chunkOf ∘ Chunk.ExternalKey) c = id c := by
      intro c hc
      exact hchunk c hc
    rw [List.map_congr_left this, List.map_id]

/-- All page runs of a well-stored table are clean, and the chunks they
send are, taken together, a permutation of the table's chunks. -/
theorem tableRuns_clean (store : Store) (t : String) (chs : List Chunk)
    (hnd : (chs.map Chunk.ExternalKey).Nodup)
    (hstore : ∀ c ∈ chs, store t c.ExternalKey = some (singleRow c)) :
    (∀ r ∈ tableRuns store t chs, pageOutcome r = .clean)
    ∧ (((tableRuns store t chs).map (fun r => r.2.1)).flatten).Perm chs := by
  have hruns : tableRuns store t chs
      = (paginate chs).map (fun p =>
          ((p.map Chunk.ExternalKey).length,
            runRows (chunksMap chs)
              (readRows store t (p.map Chunk.ExternalKey)))) := by
    unfold tableRuns
    rw [paginate_map Chunk.ExternalKey chs, List.map_map]
    rfl
  constructor
  · intro r hr
    rw [hruns] at hr
    obtain ⟨p, hp, rfl⟩ := List.mem_map.mp hr
    obtain ⟨hrun, hperm⟩ := page_run_clean store t chs hnd hstore p hp
    rw [hrun]
    unfold pageOutcome
    dsimp only
    have hlen : (List.map (fun k => (mapGet (chunksMap chs) k).getD default)
        (sortKeys (List.map Chunk.ExternalKey p))).length
        = (List.map Chunk.ExternalKey p).length := by
      rw [hperm.length_eq, List.length_map]
    rw [if_neg (by
      intro hcon
      rw [hlen] at hcon
      exact Nat.lt_irrefl _ hcon)]
  · rw [hruns, List.map_map]
    have hcongr : ((paginate chs).map
        ((fun r : PageRun => r.2.1) ∘ (fun p =>
          ((p.map Chunk.ExternalKey).length,
            runRows (chunksMap chs)
              (readRows store t (p.map Chunk.ExternalKey))))))
        = (paginate chs).map (fun p =>
            (sortKeys (p.map Chunk.ExternalKey)).map
              (fun k => (mapGet (chunksMap chs) k).getD default)) := by
      refine List.map_congr_left ?_
      intro p hp
      show (runRows (chunksMap chs)
          (readRows store t (p.map Chunk.ExternalKey))).1 = _
      rw [(page_run_clean store t chs hnd hstore p hp).1]
    rw [hcongr]
    have : ∀ L : List (List Chunk),
        (∀ p ∈ L, ((sortKeys (p.map Chunk.ExternalKey)).map
          (fun k => (mapGet (chunksMap chs) k).getD default)).Perm p) →
        ((L.map (fun p => (sortKeys (p.map Chunk.ExternalKey)).map
          (fun k => (mapGet (chunksMap chs) k).getD default))).flatten).Perm
          L.flatten := by
      intro L
      induction L with
      | nil => intro _; exact List.Perm.refl _
      | cons p rest ih =>
        intro h
        simp only [List.map_cons, List.flatten_cons]
        exact (h p (List.mem_cons_self _ _)).append
          (ih (fun q hq => h q (List.mem_cons_of_mem _ hq)))
    refine (this (paginate chs) ?_).trans ?_
    · intro p hp
      exact (page_run_clean store t chs hnd hstore p hp).2
    · rw [paginate_flatten]

/-! ## Gathering lemmas and the round trip -/

theorem forall₂_left_mem {α β : Type} (R : α → β → Prop) :
    ∀ (l : List α) (tr : List β), List.Forall₂ R l tr →
      ∀ c ∈ l, ∃ x ∈ tr, R c x := by
  intro l tr h
  induction h with
  | nil => intro c hc; cases hc
  | cons hr hrest ih =>
    intro c hc
    rcases List.mem_cons.mp hc with rfl | hc'
    · exact ⟨_, List.mem_cons_self _ _, hr⟩
    · obtain ⟨x, hx, hR⟩ := ih c hc'
      exact ⟨x, List.mem_cons_of_mem _ hx, hR⟩

theorem firstErrSend_none :
    ∀ (outs : List PageOutcome), (∀ o ∈ outs, o = .clean) →
      firstErrSend outs = none := by
  intro outs
  induction outs with
  | nil => intro _; rfl
  | cons o rest ih =>
    intro h
    have ho := h o (List.mem_cons_self _ _)
    subst ho
    exact ih (fun x hx => h x (List.mem_cons_of_mem _ hx))

theorem combineRuns_clean (runs : List PageRun)
    (h : ∀ r ∈ runs, pageOutcome r = .clean) :
    combineRuns runs = .success ((runs.map (fun r => r.2.1)).flatten) := by
  unfold combineRuns
  have hany : (runs.map pageOutcome).any
      (fun o => decide (o = PageOutcome.panicked)) = false := by
    rw [List.any_eq_false]
    intro o ho
    obtain ⟨r, hr, rfl⟩ := List.mem_map.mp ho
    rw [h r hr]
    decide
  have hfe : firstErrSend (runs.map pageOutcome) = none :=
    firstErrSend_none _ (by
      intro o ho
      obtain ⟨r, hr, rfl⟩ := List.mem_map.mp ho
      exact h r hr)
  simp only [hany, Bool.false_eq_true, if_false, hfe]

theorem flatten_map_flatten_perm {α β γ : Type} (L : List α) (F : α → List β)
    (f : β → List γ) (G : α → List γ)
    (h : ∀ a ∈ L, (((F a).map f).flatten).Perm (G a)) :
    ((((L.map F).flatten).map f).flatten).Perm ((L.map G).flatten) := by
  induction L with
  | nil => exact .refl _
  | cons a rest ih =>
    simp only [List.map_cons, List.flatten_cons, List.map_append,
      List.flatten_append]
    exact (h a (List.mem_cons_self _ _)).append
      (ih (fun b hb => h b (List.mem_cons_of_mem _ hb)))

/-- Counterexample to C1 as stated over every batch: a batch that
repeats a chunk identity is written successfully, but reading the same
batch back fails with a count mismatch instead of returning the written
chunks — the repeated key appears twice in the request's key list while
the backing store returns its row only once, so the page goroutine
reports receiving 1 of the 2 keys it asked for. -/
theorem putChunks_getChunks_roundtrip_counterexample :
    PutChunks demoSchema emptyStore [c1demo, c1demo] = .ok dupStore
    ∧ GetChunks demoSchema dupStore [c1demo, c1demo]
        = .failure (.readErr (.countMismatch 2 1)) :=
  ⟨rfl, by decide⟩

/-- Claim C1, amended to the batches on which the code meets it: for
every batch whose chunk identities are pairwise distinct (the external
key is the storage identity of a chunk, a pure function of tenant,
fingerprint and time range; a batch repeating an identity instead
returns a count-mismatch error), PutChunks into an empty store followed
by GetChunks on the same identities succeeds and returns, up to
reordering, exactly the written chunks — tenant, fingerprint, time
range, metric identity, encoding and payload all preserved, since the
returned chunks are equal as whole values to the written ones. -/
theorem putChunks_getChunks_roundtrip (sc : SchemaConfig) (store : Store)
    (input : List Chunk)
    (hput : PutChunks sc emptyStore input = .ok store)
    (hnd : (input.map Chunk.ExternalKey).Nodup) :
    ∃ out, GetChunks sc store input = .success out ∧ out.Perm input := by
  unfold PutChunks at hput
  cases hacc : putChunksAccum sc input with
  | error e => rw [hacc] at hput; cases hput
  | ok tr =>
    rw [hacc] at hput
    dsimp only at hput
    injection hput with hst
    subst hst
    have hF := putChunksAccum_spec sc input tr hacc
    have hroutes : ∀ c ∈ input, ∃ t, sc.ChunkTableFor c.From = .ok t := by
      intro c hc
      obtain ⟨x, _, hR⟩ := forall₂_left_mem _ input tr hF c hc
      exact ⟨x.1, hR.1⟩
    obtain ⟨groups, hg⟩ := getGroupGo_ok_of_routes sc input hroutes []
    have hg' : getGroup sc input = .ok groups := hg
    have hperm := getGroupGo_flatten_perm sc input [] groups hg
    simp only [List.map_nil, List.flatten_nil, List.nil_append] at hperm
    have hbr := getGroupGo_inv sc input [] groups hg (by intro p hp; cases hp)
    have hfknd : (((groups.map (·.2)).flatten).map Chunk.ExternalKey).Nodup :=
      ((hperm.map Chunk.ExternalKey).nodup_iff).mpr hnd
    have hbucket : ∀ g ∈ groups,
        (∀ r ∈ tableRuns (putApply emptyStore tr) g.1 g.2,
          pageOutcome r = .clean)
        ∧ (((tableRuns (putApply emptyStore tr) g.1 g.2).map
            (fun r => r.2.1)).flatten).Perm g.2 := by
      intro g hgmem
      have hsub : g.2.Sublist ((groups.map (·.2)).flatten) :=
        List.sublist_flatten_of_mem (List.mem_map_of_mem (·.2) hgmem)
      have hgnd : (g.2.map Chunk.ExternalKey).Nodup :=
        List.Nodup.sublist (hsub.map _) hfknd
      refine tableRuns_clean _ g.1 g.2 hgnd ?_
      intro c hc
      have hcin : c ∈ input := hperm.mem_iff.mp (hsub.subset hc)
      exact store_after_put sc input tr hacc hnd c hcin g.1 (hbr g hgmem c hc)
    have hclean : ∀ r ∈ (groups.map
        (fun g => tableRuns (putApply emptyStore tr) g.1 g.2)).flatten,
        pageOutcome r = .clean := by
      intro r hr
      obtain ⟨rl, hrl, hrin⟩ := List.mem_flatten.mp hr
      obtain ⟨g, hgmem, rfl⟩ := List.mem_map.mp hrl
      exact (hbucket g hgmem).1 r hrin
    refine ⟨(((groups.map
        (fun g => tableRuns (putApply emptyStore tr) g.1 g.2)).flatten).map
          (fun r => r.2.1)).flatten, ?_, ?_⟩
    · unfold GetChunks
      rw [hg']
      exact combineRuns_clean _ hclean
    · exact (flatten_map_flatten_perm groups
        (fun g => tableRuns (putApply emptyStore tr) g.1 g.2)
        (fun r => r.2.1) (fun g => g.2)
        (fun g hgmem => (hbucket g hgmem).2)).trans hperm

/-- Witness for C1 at the demo batch: the round trip succeeds and
returns a permutation of the two written chunks. -/
theorem putChunks_getChunks_roundtrip_witness :
    ∃ out, GetChunks demoSchema demoStore [c1demo, c2demo] = .success out
      ∧ out.Perm [c1demo, c2demo] :=
  putChunks_getChunks_roundtrip demoSchema demoStore [c1demo, c2demo]
    rfl (by decide)

/-! ## Counting lemmas for the channels and the no-partial-result law -/

theorem tableRuns_sent_le (store : Store) (t : String) (chs : List Chunk) :
    ∀ r ∈ tableRuns store t chs, r.2.1.length ≤ r.1 := by
  intro r hr
  unfold tableRuns at hr
  obtain ⟨p, _, rfl⟩ := List.mem_map.mp hr
  calc (runRows (chunksMap chs) (readRows store t p)).1.length
      ≤ (readRows store t p).length := runRows_sent_le _ _
    _ ≤ p.length := readRows_length_le _ _ _

theorem pageOutcome_clean_le (r : PageRun)
    (h : pageOutcome r = .clean) : r.1 ≤ r.2.1.length := by
  unfold pageOutcome at h
  cases he : r.2.2 with
  | done =>
    rw [he] at h
    dsimp only at h
    by_cases hlt : r.2.1.length < r.1
    · rw [if_pos hlt] at h; cases h
    · exact Nat.le_of_not_lt hlt
  | panicked => rw [he] at h; cases h
  | unknown k => rw [he] at h; cases h
  | decodeFail e => rw [he] at h; cases h

theorem firstErrSend_none_mem :
    ∀ (outs : List PageOutcome), firstErrSend outs = none →
      ∀ o ∈ outs, ∀ e, o ≠ .errSend e := by
  intro outs
  induction outs with
  | nil => intro _ o ho; cases ho
  | cons o0 rest ih =>
    intro h o ho e
    cases o0 with
    | errSend e0 => cases h
    | panicked =>
      rcases List.mem_cons.mp ho with rfl | ho'
      · intro hh; cases hh
      · exact ih h o ho' e
    | clean =>
      rcases List.mem_cons.mp ho with rfl | ho'
      · intro hh; cases hh
      · exact ih h o ho' e

theorem sum_fst_flatten :
    ∀ (L : List (List PageRun)),
      ((L.flatten).map (fun r => r.1)).sum
        = (L.map (fun l => (l.map (fun r => r.1)).sum)).sum := by
  intro L
  induction L with
  | nil => rfl
  | cons l rest ih =>
    simp only [List.flatten_cons, List.map_append, List.sum_append,
      List.map_cons, List.sum_cons, ih]

theorem tableRuns_fst (store : Store) (t : String) (chs : List Chunk) :
    (tableRuns store t chs).map (fun r => r.1)
      = (paginate (chs.map Chunk.ExternalKey)).map List.length := by
  unfold tableRuns
  rw [List.map_map]
  rfl

theorem runs_total_pages (sc : SchemaConfig) (store : Store)
    (input : List Chunk) (groups : List (String × List Chunk))
    (hg : getGroup sc input = .ok groups) :
    ((((groups.map (fun g => tableRuns store g.1 g.2)).flatten).map
      (fun r => r.1)).sum) = input.length := by
  have hperm := getGroupGo_flatten_perm sc input [] groups hg
  simp only [List.map_nil, List.flatten_nil, List.nil_append] at hperm
  rw [sum_fst_flatten, List.map_map]
  have hcongr : ∀ g ∈ groups,
      ((fun l => (l.map (fun r : PageRun => r.1)).sum)
        ∘ (fun g : String × List Chunk => tableRuns store g.1 g.2)) g
      = g.2.length := by
    intro g _
    show ((tableRuns store g.1 g.2).map (fun r => r.1)).sum = _
    rw [tableRuns_fst, paginate_sum_length, List.length_map]
  rw [List.map_congr_left hcongr]
  have : (groups.map (fun g => g.2.length)).sum
      = ((groups.map (fun g => g.2)).flatten).length := by
    rw [List.length_flatten, List.map_map]
    rfl
  rw [this, hperm.length_eq]

theorem sum_map_one {α : Type} (l : List α) :
    (l.map (fun _ => (1 : Nat))).sum = l.length := by
  induction l with
  | nil => rfl
  | cons a rest ih => simp [ih, Nat.add_comm]

/-- Claim C2: GetChunks never returns a partial result.  Whenever it
returns a chunk slice with no error, the slice holds all len(input)
requested chunks — for every schema, store and input; the error return
carries no slice by construction of the result type, mirroring the
source's return nil, err.  And on the concrete scenario where one
requested key is absent from the backing store, the call returns the
count-mismatch error (asked 2, received 1), not a shorter slice. -/
theorem getChunks_no_partial :
    (∀ (sc : SchemaConfig) (store : Store) (input out : List Chunk),
      GetChunks sc store input = .success out → out.length = input.length)
    ∧ GetChunks demoSchema demoStore1 [c1demo, c2demo]
        = .failure (.readErr (.countMismatch 2 1)) := by
  constructor
  · intro sc store input out h
    unfold GetChunks at h
    cases hg : getGroup sc input with
    | error e => rw [hg] at h; cases h
    | ok groups =>
      rw [hg] at h
      dsimp only at h
      unfold combineRuns at h
      dsimp only at h
      cases hany : ((groups.map (fun g => tableRuns store g.1 g.2)).flatten.map
          pageOutcome).any (fun o => decide (o = PageOutcome.panicked)) with
      | true => rw [hany] at h; simp at h
      | false =>
        rw [hany] at h
        simp only [Bool.false_eq_true, if_false] at h
        cases hfe : firstErrSend
            ((groups.map (fun g => tableRuns store g.1 g.2)).flatten.map
              pageOutcome) with
        | some e => rw [hfe] at h; simp at h
        | none =>
          rw [hfe] at h
          simp only [GetOutcome.success.injEq] at h
          subst h
          have hclean : ∀ r ∈ (groups.map
              (fun g => tableRuns store g.1 g.2)).flatten,
              pageOutcome r = .clean := by
            intro r hr
            have hnp : ¬ pageOutcome r = PageOutcome.panicked := by
              have := List.any_eq_false.mp hany (pageOutcome r)
                (List.mem_map_of_mem pageOutcome hr)
              simpa using this
            have hne := firstErrSend_none_mem _ hfe (pageOutcome r)
              (List.mem_map_of_mem pageOutcome hr)
            cases ho : pageOutcome r with
            | panicked => exact absurd ho hnp
            | errSend e => exact absurd rfl (ho ▸ hne e)
            | clean => rfl
          have hsent : ∀ r ∈ (groups.map
              (fun g => tableRuns store g.1 g.2)).flatten,
              r.2.1.length = r.1 := by
            intro r hr
            obtain ⟨rl, hrl, hrin⟩ := List.mem_flatten.mp hr
            obtain ⟨g, hgmem, rfl⟩ := List.mem_map.mp hrl
            exact Nat.le_antisymm (tableRuns_sent_le store g.1 g.2 r hrin)
              (pageOutcome_clean_le r (hclean r hr))
          rw [List.length_flatten, List.map_map]
          rw [List.map_congr_left (fun r hr =>
            (show ((fun l : List Chunk => l.length)
                ∘ (fun r : PageRun => r.2.1)) r = r.1 from hsent r hr))]
          exact runs_total_pages sc store input groups hg
  · decide

/-- Witness for C2's universal part at the demo round trip: the
successful call returns exactly two chunks for the two requested. -/
theorem getChunks_no_partial_witness :
    demoOut.length = ([c1demo, c2demo] : List Chunk).length :=
  getChunks_no_partial.1 demoSchema demoStore [c1demo, c2demo] demoOut rfl

/-- Claim C9: the completion and error channels are buffered with
capacity len(input); for every request batch that reaches the fan-out,
the total number of chunk sends across all page goroutines is at most
len(input), and the total number of error sends is at most the number of
pages, itself at most len(input); hence every send fits in the buffer
and no page goroutine ever blocks on a channel send, even after the
gathering loop has returned. -/
theorem getChunks_channel_bounds (sc : SchemaConfig) (store : Store)
    (input : List Chunk) (groups : List (String × List Chunk))
    (hg : getGroup sc input = .ok groups) :
    outsCapacity input = input.length
    ∧ errsCapacity input = input.length
    ∧ ((((groups.map (fun g => tableRuns store g.1 g.2)).flatten).map
        chunkSendCount).sum) ≤ outsCapacity input
    ∧ ((((groups.map (fun g => tableRuns store g.1 g.2)).flatten).map
        errSendCount).sum)
        ≤ ((groups.map (fun g => tableRuns store g.1 g.2)).flatten).length
    ∧ ((groups.map (fun g => tableRuns store g.1 g.2)).flatten).length
        ≤ errsCapacity input := by
  refine ⟨rfl, rfl, ?_, ?_, ?_⟩
  · have hle : ∀ r ∈ (groups.map (fun g => tableRuns store g.1 g.2)).flatten,
        chunkSendCount r ≤ r.1 := by
      intro r hr
      obtain ⟨rl, hrl, hrin⟩ := List.mem_flatten.mp hr
      obtain ⟨g, hgmem, rfl⟩ := List.mem_map.mp hrl
      exact tableRuns_sent_le store g.1 g.2 r hrin
    calc (((groups.map (fun g => tableRuns store g.1 g.2)).flatten).map
          chunkSendCount).sum
        ≤ (((groups.map (fun g => tableRuns store g.1 g.2)).flatten).map
            (fun r => r.1)).sum := List.sum_le_sum hle
      _ = input.length := runs_total_pages sc store input groups hg
  · have hle : ∀ r ∈ (groups.map (fun g => tableRuns store g.1 g.2)).flatten,
        errSendCount r ≤ 1 := by
      intro r _
      unfold errSendCount
      cases pageOutcome r with
      | errSend e => exact Nat.le_refl _
      | panicked => exact Nat.zero_le _
      | clean => exact Nat.zero_le _
    calc (((groups.map (fun g => tableRuns store g.1 g.2)).flatten).map
          errSendCount).sum
        ≤ (((groups.map (fun g => tableRuns store g.1 g.2)).flatten).map
            (fun _ => 1)).sum := List.sum_le_sum hle
      _ = _ := sum_map_one _
  · have hperm := getGroupGo_flatten_perm sc input [] groups hg
    simp only [List.map_nil, List.flatten_nil, List.nil_append] at hperm
    rw [List.length_flatten, List.map_map]
    have hle : ∀ g ∈ groups,
        ((fun l : List PageRun => l.length)
          ∘ (fun g : String × List Chunk => tableRuns store g.1 g.2)) g
        ≤ g.2.length := by
      intro g _
      show (tableRuns store g.1 g.2).length ≤ _
      unfold tableRuns
      rw [List.length_map]
      calc (paginate (g.2.map Chunk.ExternalKey)).length
          ≤ (g.2.map Chunk.ExternalKey).length := paginate_length_le _
        _ = g.2.length := List.length_map _ _
    calc (groups.map ((fun l : List PageRun => l.length)
          ∘ (fun g : String × List Chunk => tableRuns store g.1 g.2))).sum
        ≤ (groups.map (fun g => g.2.length)).sum := List.sum_le_sum hle
      _ = ((groups.map (fun g => g.2)).flatten).length := by
          rw [List.length_flatten, List.map_map]
          rfl
      _ = input.length := hperm.length_eq
      _ = errsCapacity input := rfl

/-- Witness for C9 at the demo batch. -/
theorem getChunks_channel_bounds_witness :
    outsCapacity [c1demo, c2demo] = 2
    ∧ (((([("table1", [c1demo, c2demo])].map
        (fun g => tableRuns demoStore g.1 g.2)).flatten).map
        chunkSendCount).sum) ≤ outsCapacity [c1demo, c2demo] :=
  ⟨rfl,
    (getChunks_channel_bounds demoSchema demoStore [c1demo, c2demo]
      [("table1", [c1demo, c2demo])] rfl).2.2.1⟩

end Cortex
